import Mathlib

/-!
Verification of the Universal Test Engine (a declarative test-execution
engine written in TypeScript) against its natural-language specification.

The development shallowly embeds the data model and the pure core of the
engine:

* `JsVal` — a closed variant type for the JSON-like runtime values the
  engine traverses (`undefined`, `null`, booleans, numbers with `NaN`
  kept separate, strings, arrays, keyed objects).  Numbers are modelled
  as exact rationals; JavaScript reference equality on containers is
  modelled as `false` (two separately constructed values).
* the deep-comparison utilities `deepGet` / `deepContains` / `deepEqual`
  from `src/utils/helpers.ts`;
* the interpolation engine and tag filter from the data loader;
* the boundary/negative payload generator from
  `src/utils/boundary-generator.ts`;
* the HTTP assertion engine of `src/core/api-runner.ts` (the straight-line
  sequence of throwing `expect` calls is embedded as the first failing
  check of the activated check list); the AJV schema validator and the
  regular-expression matcher are host collaborators and enter as
  function parameters;
* the UI action dispatcher of `src/core/ui-runner.ts`, with the page
  capability (Playwright) as a host collaborator record.

Recursive traversals over `JsVal` use a fuel argument (always called with
fuel at least the value size, which every recursion strictly decreases),
so all definitions compute by `rfl`/`decide`.
-/

namespace UTE

/-- Closed variant type for the JavaScript runtime values handled by the
engine.  `nan` is kept apart from `num` because `NaN` compares unequal to
itself under `===`; `undef` is JavaScript `undefined`.  Property access on
a plain object consults the prototype chain, so reading a key such as
`toString` off a parsed-JSON object yields an inherited member of
`Object.prototype`: `protoFn m` is the inherited function stored under
member name `m`, and `protoObj` is the `Object.prototype` object itself
(the result of reading `__proto__`). -/
inductive JsVal where
  | undef
  | null
  | bool (b : Bool)
  | num (q : Rat)
  | nan
  | str (s : String)
  | arr (elems : List JsVal)
  | obj (fields : List (String × JsVal))
  | protoFn (member : String)
  | protoObj

namespace JsVal

mutual
/-- Structural size of a value: scalars are 0, containers count one per
node plus one per child slot, so every child is strictly smaller.
`protoObj` counts as a (childless) object node. -/
def size : JsVal → Nat
  | .arr xs => sizeArr xs + 1
  | .obj fs => sizeObj fs + 1
  | .protoObj => 1
  | _ => 0

/-- Combined size of the elements of an array. -/
def sizeArr : List JsVal → Nat
  | [] => 0
  | x :: xs => size x + sizeArr xs + 1

/-- Combined size of the values of the fields of an object. -/
def sizeObj : List (String × JsVal) → Nat
  | [] => 0
  | f :: fs => size f.2 + sizeObj fs + 1
end

end JsVal

open JsVal

/-- JavaScript `typeof` on the embedded values (`typeof null` is
`"object"`, as in the language). -/
def typeOf : JsVal → String
  | .undef => "undefined"
  | .null => "object"
  | .bool _ => "boolean"
  | .num _ => "number"
  | .nan => "number"
  | .str _ => "string"
  | .arr _ => "object"
  | .obj _ => "object"
  | .protoFn _ => "function"
  | .protoObj => "object"

/-- Whether a value is the `null` literal. -/
def isNullV : JsVal → Bool
  | .null => true
  | _ => false

/-- JavaScript strict equality `===`.  Primitives compare by value,
`NaN === NaN` is `false`, and reference equality of two separately
constructed arrays/objects is `false`.  The inherited prototype members
are singletons (the same function object every time one is read), so two
reads of the same member are reference-equal. -/
def strictEq : JsVal → JsVal → Bool
  | .undef, .undef => true
  | .null, .null => true
  | .bool a, .bool b => a == b
  | .num a, .num b => a == b
  | .str a, .str b => a == b
  | .protoFn a, .protoFn b => a == b
  | .protoObj, .protoObj => true
  | _, _ => false

/-- The decimal digit character of `n % 10`-style values. -/
def digitCh (n : Nat) : Char :=
  Char.ofNat ('0'.toNat + n)

/-- Fueled most-significant-first decimal digits of a natural number
(fuel `n + 1` always suffices, since the value shrinks by a factor of
ten per step). -/
def natKeyAux : Nat → Nat → List Char
  | 0, _ => []
  | f + 1, n => if n < 10 then [digitCh n] else natKeyAux f (n / 10) ++ [digitCh (n % 10)]

/-- The canonical decimal string of a natural number — the form
JavaScript uses for array index property keys. -/
def natKey (n : Nat) : String :=
  String.mk (natKeyAux (n + 1) n)

/-- JavaScript `Object.keys`: field names of an object, decimal index
strings of an array, nothing for scalars. -/
def keysOf : JsVal → List String
  | .obj fs => fs.map Prod.fst
  | .arr xs => (List.range xs.length).map natKey
  | _ => []

/-- Own-property access `v[k]` with a string key as the deep comparison
helpers exercise it, yielding `undefined` when absent: object fields by
name, array elements by their canonical decimal index string.  (The
comparison helpers read keys drawn from `Object.keys` of one operand off
the other; an absent own key then reads as an inherited prototype member
or `undefined`, and either way the surrounding comparison of a JSON-like
value against it fails, so own-property access is the behaviour those
helpers observe.  The full prototype-chain lookup performed by `deepGet`
is modelled separately below.) -/
def getProp : JsVal → String → JsVal
  | .obj fs, k => (fs.lookup k).getD .undef
  | .arr xs, k =>
    match (List.range xs.length).find? (fun i => natKey i == k) with
    | some i => xs.getD i .undef
    | none => .undef
  | _, _ => ( .undef : JsVal)

/-! ### The Object.prototype chain

A plain object produced by `JSON.parse` (or an object literal such as the
variable store of the runners) inherits from `Object.prototype`, so the
unguarded property reads of the source — `current[key]` in `deepGet` and
`vars[key]` in `interpolate` — observe the inherited members when the key
is absent as an own property: `({}).toString` is a function, not
`undefined`, and `({}).__proto__` is the `Object.prototype` object. -/

/-- The own function-valued members of `Object.prototype` (all
non-enumerable, hence invisible to `Object.keys` but found by property
lookup). -/
def protoFnNames : List String :=
  ["constructor", "hasOwnProperty", "isPrototypeOf", "propertyIsEnumerable",
   "toLocaleString", "toString", "valueOf", "__defineGetter__",
   "__defineSetter__", "__lookupGetter__", "__lookupSetter__"]

/-- The string coercion of an inherited member function, as V8 (the
engine under Node, which runs this program) renders it: `constructor` is
the `Object` constructor function, every other member prints under its
own name. -/
def protoFnString (k : String) : String :=
  "function " ++ (if k = "constructor" then "Object" else k) ++
    "() \x7b [native code] \x7d"

/-- The value a property read finds on the prototype chain of a plain
object when the key is not an own property: an inherited member function,
the prototype object itself for `__proto__`, and `undefined` for every
other key. -/
def objMiss (k : String) : JsVal :=
  if protoFnNames.contains k then .protoFn k
  else if k == "__proto__" then .protoObj
  else ( .undef : JsVal)

/-! ### deepGet (src/utils/helpers.ts) -/

/-- Result of JavaScript `Number(string)` as far as array indexing is
concerned: `NaN`, an integer value, a non-integer finite number, or an
infinity — only an integer value can denote an element index, and
numbers are exact here (the float64 rounding of literals beyond 2^53 is
not modelled, nor the overflow of astronomically large exponents to
`Infinity`; an integer that large is out of range of any real array and
indexes to `undefined` just as the infinities do). -/
inductive NumParse where
  | nan
  | intVal (i : Int)
  | fracVal
  | infVal
deriving DecidableEq

/-- Digits of a nonempty all-digit character list as a natural number. -/
def digitsToNat (ds : List Char) : Nat :=
  ds.foldl (fun acc c => acc * 10 + (c.toNat - '0'.toNat)) 0

/-- ASCII whitespace stripped by JavaScript `Number()`. -/
def isWsChar (c : Char) : Bool :=
  c == ' ' || c == '\t' || c == '\n' || c == '\r'

/-- Leading and trailing whitespace removed from a character list. -/
def trimChars (l : List Char) : List Char :=
  ((l.dropWhile isWsChar).reverse.dropWhile isWsChar).reverse

/-- Hexadecimal digit predicate. -/
def isHexDigit (c : Char) : Bool :=
  c.isDigit || ('a' ≤ c && c ≤ 'f') || ('A' ≤ c && c ≤ 'F')

/-- Octal digit predicate. -/
def isOctDigit (c : Char) : Bool :=
  '0' ≤ c && c ≤ '7'

/-- Binary digit predicate. -/
def isBinDigit (c : Char) : Bool :=
  c == '0' || c == '1'

/-- Numeric value of a digit character in any radix up to 16. -/
def hexDigitVal (c : Char) : Nat :=
  if c.isDigit then c.toNat - '0'.toNat
  else if 'a' ≤ c ∧ c ≤ 'f' then c.toNat - 'a'.toNat + 10
  else c.toNat - 'A'.toNat + 10

/-- Value of a digit list in the given radix. -/
def radixVal (r : Nat) (ds : List Char) : Nat :=
  ds.foldl (fun acc c => acc * r + hexDigitVal c) 0

/-- Classify the exact value `± digits(ip).digits(fp) × 10^e`: an
integer (`intVal`) when the scaled mantissa has no fractional part, a
non-integer finite number otherwise. -/
def decToNumParse (neg : Bool) (ip fp : List Char) (e : Int) : NumParse :=
  let m : Nat := digitsToNat (ip ++ fp)
  let shift : Int := e - (fp.length : Int)
  let n : Option Nat :=
    if 0 ≤ shift then some (m * 10 ^ shift.toNat)
    else
      let d := (-shift).toNat
      if m % 10 ^ d = 0 then some (m / 10 ^ d) else none
  match n with
  | some v => .intVal (if neg then -(v : Int) else (v : Int))
  | none => .fracVal

/-- The optional exponent suffix of a decimal literal: the characters
after the `e`/`E` must be an optional sign followed by a nonempty digit
run reaching the end of the string. -/
def decExpPart (neg : Bool) (ip fp : List Char) (er : List Char) : NumParse :=
  let (esign, ed) :=
    match er with
    | '-' :: r => (true, r)
    | '+' :: r => (false, r)
    | r => (false, r)
  if ¬ed.isEmpty ∧ ed.all Char.isDigit then
    decToNumParse neg ip fp
      (if esign then -(digitsToNat ed : Int) else (digitsToNat ed : Int))
  else .nan

/-- JavaScript `Number(s)` on a string, over exact integers/rationals:
the empty (or all-space) string is 0, `Infinity` with an optional sign
is infinite, `0x`/`0o`/`0b` prefixes (sign not allowed) read the digits
in that radix, and otherwise an optional sign, a digit run with an
optional `.` fraction (at least one digit overall) and an optional
`e`/`E` exponent parse as a decimal literal; anything else is `NaN`. -/
def jsNumParse (s : String) : NumParse :=
  let t := trimChars s.data
  if t = [] then .intVal 0
  else if t = "Infinity".data ∨ t = "+Infinity".data ∨ t = "-Infinity".data then
    .infVal
  else
    match t with
    | '0' :: 'x' :: ds =>
      if ¬ds.isEmpty ∧ ds.all isHexDigit then .intVal (radixVal 16 ds) else .nan
    | '0' :: 'X' :: ds =>
      if ¬ds.isEmpty ∧ ds.all isHexDigit then .intVal (radixVal 16 ds) else .nan
    | '0' :: 'o' :: ds =>
      if ¬ds.isEmpty ∧ ds.all isOctDigit then .intVal (radixVal 8 ds) else .nan
    | '0' :: 'O' :: ds =>
      if ¬ds.isEmpty ∧ ds.all isOctDigit then .intVal (radixVal 8 ds) else .nan
    | '0' :: 'b' :: ds =>
      if ¬ds.isEmpty ∧ ds.all isBinDigit then .intVal (radixVal 2 ds) else .nan
    | '0' :: 'B' :: ds =>
      if ¬ds.isEmpty ∧ ds.all isBinDigit then .intVal (radixVal 2 ds) else .nan
    | _ =>
      let (neg, rest) :=
        match t with
        | '-' :: r => (true, r)
        | '+' :: r => (false, r)
        | r => (false, r)
      let ip := rest.takeWhile Char.isDigit
      let afterInt := rest.dropWhile Char.isDigit
      let (fp, afterFrac) :=
        match afterInt with
        | '.' :: r => (r.takeWhile Char.isDigit, r.dropWhile Char.isDigit)
        | r => (([] : List Char), r)
      if ip.isEmpty ∧ fp.isEmpty then .nan
      else
        match afterFrac with
        | [] => decToNumParse neg ip fp 0
        | 'e' :: er => decExpPart neg ip fp er
        | 'E' :: er => decExpPart neg ip fp er
        | _ => .nan

/-- One step of `deepGet`: the body of the `reduce` callback.  Descending
through `null`/`undefined` or a non-container leaf (including an
inherited member function, whose `typeof` is not `"object"`) yields
`undefined`; arrays convert the key with `Number` and index (a
non-integer or infinite index names no element); plain objects perform
the unguarded property read `current[key]`, which falls back on the
`Object.prototype` chain when the key is not an own property; the
prototype object itself has `typeof` `"object"`, its own properties are
the member functions, and its `__proto__` is `null`. -/
def deepGetStep : JsVal → String → JsVal
  | .arr xs, key =>
    match jsNumParse key with
    | .nan => .undef
    | .intVal i => if 0 ≤ i then xs.getD i.toNat .undef else .undef
    | .fracVal => .undef
    | .infVal => .undef
  | .obj fs, key => (fs.lookup key).getD (objMiss key)
  | .protoObj, key =>
    if protoFnNames.contains key then .protoFn key
    else if key == "__proto__" then .null
    else .undef
  | _, _ => ( .undef : JsVal)

/-- Deep dotted-path extraction `deepGet(obj, path)`: split the path on
`.` and fold the step over the keys. -/
def deepGet (v : JsVal) (path : String) : JsVal :=
  (path.splitOn ".").foldl deepGetStep v

/-! ### deepEqual and deepContains (src/utils/helpers.ts)

Both recurse on a fuel counter; the wrappers pass fuel strictly greater
than the combined size of the two arguments, and every recursive call
strictly decreases that combined size, so the fuel never runs out on the
calls made by the wrappers. -/

/-- Fueled body of `deepEqual`: strict equality first, `null` on either
side fails, differing `typeof` fails, arrays compare pairwise, remaining
same-`typeof`-`"object"` pairs compare by key count and by every key of
the left value, and anything else is `false`. -/
def deepEqualF : Nat → JsVal → JsVal → Bool
  | 0, _, _ => false
  | f + 1, a, b =>
    if strictEq a b then true
    else if isNullV a || isNullV b then false
    else if typeOf a ≠ typeOf b then false
    else
      match a, b with
      | .arr xs, .arr ys =>
        (xs.length == ys.length) &&
          (List.zip xs ys).all (fun p => deepEqualF f p.1 p.2)
      | _, _ =>
        if typeOf a == "object" then
          ((keysOf a).length == (keysOf b).length) &&
            (keysOf a).all (fun k => deepEqualF f (getProp a k) (getProp b k))
        else false

/-- Structural equality `deepEqual(a, b)` of the helpers module. -/
def deepEqual (a b : JsVal) : Bool :=
  deepEqualF (size a + size b + 1) a b

/-- Fueled body of `deepContains`: strict equality first; `null`,
`undefined` and scalar subsets compare strictly; an array subset needs an
array superset with an (unordered, existential) match for every element;
an object subset needs a non-null object-typeof superset containing every
key recursively. -/
def deepContainsF : Nat → JsVal → JsVal → Bool
  | 0, _, _ => false
  | f + 1, superset, subset =>
    if strictEq subset superset then true
    else
      match subset with
      | .undef => strictEq superset subset
      | .null => strictEq superset subset
      | .arr items =>
        match superset with
        | .arr sups => items.all (fun it => sups.any (fun sp => deepContainsF f sp it))
        | _ => false
      | .obj sfs =>
        match superset with
        | .arr _ => sfs.all (fun kv => deepContainsF f (getProp superset kv.1) kv.2)
        | .obj _ => sfs.all (fun kv => deepContainsF f (getProp superset kv.1) kv.2)
        | _ => false
      | _ => strictEq superset subset

/-- Partial containment `deepContains(superset, subset)` of the helpers
module. -/
def deepContains (superset subset : JsVal) : Bool :=
  deepContainsF (size superset + size subset + 1) superset subset

/-! ### Variable interpolation (data loader)

The source replaces with the global regex `/\{\{(\w+)\}\}/g` and the
callback `(_, key) => vars[key] ?? placeholder`.  The embedding scans the
character list left to right: at each position it tries to match two
opening braces, a nonempty run of word characters and two closing
braces; a match is replaced (by the value the property read `vars[key]`
finds — own entry or inherited prototype member — if that read is not
nullish, by the placeholder itself otherwise) and scanning resumes after
it, any other character is copied.  This is exactly the leftmost-first,
resume-after-match semantics of `String.prototype.replace` with a global
regex, given that `\w+` is a maximal word run (backtracking cannot help,
since the character after a shorter run would be a word character, not a
closing brace). -/

/-- JavaScript `\w` (no unicode flag): ASCII letters, digits, underscore. -/
def isWordChar (c : Char) : Bool :=
  c.isAlpha || c.isDigit || c == '_'

/-- Match `{{word+}}` at the head of the character list, returning the
characters of the identifier and the remainder after the match. -/
def matchPh : List Char → Option (List Char × List Char)
  | c1 :: c2 :: rest =>
    if c1 = '\x7b' ∧ c2 = '\x7b' then
      let ws := rest.takeWhile isWordChar
      if ws.isEmpty then none
      else
        match rest.dropWhile isWordChar with
        | d1 :: d2 :: tail =>
          if d1 = '\x7d' ∧ d2 = '\x7d' then some (ws, tail) else none
        | _ => none
    else none
  | _ => none

/-- The property read `vars[key]` of the interpolation callback, as a
nullish-or-string outcome.  `vars` is a plain object, so the read falls
back on the `Object.prototype` chain: an own entry shadows everything, a
missing key that names an inherited member yields that member (which the
`replace` machinery then coerces to a string — `protoFnString` for a
member function, `"[object Object]"` for the prototype object read via
`__proto__`), and only a key that finds neither is nullish, letting the
`??` fallback keep the literal placeholder. -/
def jsVarLookup (vars : List (String × String)) (k : String) : Option String :=
  match vars.lookup k with
  | some v => some v
  | none =>
    if protoFnNames.contains k then some (protoFnString k)
    else if k == "__proto__" then some "[object Object]"
    else none

/-- Replacement for a matched placeholder: the (string-coerced) value the
property read finds when it is not nullish, the literal placeholder text
otherwise (`vars[key] ?? ...` in the source). -/
def phRepl (vars : List (String × String)) (ws : List Char) : List Char :=
  match jsVarLookup vars (String.mk ws) with
  | some v => v.data
  | none => '\x7b' :: '\x7b' :: (ws ++ ['\x7d', '\x7d'])

/-- The interpolation scan.  Fuel is spent one unit per emitted chunk and
every chunk consumes at least one input character, so fuel equal to the
input length always suffices. -/
def interpCharsF (vars : List (String × String)) : Nat → List Char → List Char
  | _, [] => []
  | 0, l => l
  | f + 1, c :: cs =>
    match matchPh (c :: cs) with
    | some (ws, tail) => phRepl vars ws ++ interpCharsF vars f tail
    | none => c :: interpCharsF vars f cs

/-- String-level interpolation: `s.replace(/\{\{(\w+)\}\}/g, cb)`. -/
def interpolateString (s : String) (vars : List (String × String)) : String :=
  String.mk (interpCharsF vars s.data.length s.data)

/-- Fueled deep interpolation over a value tree: strings are rewritten,
arrays and objects recurse, all other leaves pass through.  The
transform builds a new tree (the embedding is pure, as is the source,
which never writes into its input). -/
def interpolateF (vars : List (String × String)) : Nat → JsVal → JsVal
  | 0, v => v
  | f + 1, v =>
    match v with
    | .str s => .str (interpolateString s vars)
    | .arr xs => .arr (xs.map (interpolateF vars f))
    | .obj fs => .obj (fs.map (fun kv => (kv.1, interpolateF vars f kv.2)))
    | other => other

/-- Deep interpolation `interpolate(obj, vars)` of the data loader. -/
def interpolate (vars : List (String × String)) (v : JsVal) : JsVal :=
  interpolateF vars (size v + 1) v

/-- Specification-side predicate for the idempotence claim: every
placeholder occurrence the scan meets has an identifier whose property
read is nullish — no own entry in the mapping and no inherited
`Object.prototype` member of that name (a placeholder another pass would
also leave alone). -/
def resolvedF (vars : List (String × String)) : Nat → List Char → Bool
  | _, [] => true
  | 0, _ => true
  | f + 1, c :: cs =>
    match matchPh (c :: cs) with
    | some (ws, tail) => (jsVarLookup vars (String.mk ws)).isNone && resolvedF vars f tail
    | none => resolvedF vars f cs

/-- String-level form of `resolvedF`. -/
def resolvedString (s : String) (vars : List (String × String)) : Bool :=
  resolvedF vars s.data.length s.data

/-! ### Tag filtering (data loader) -/

/-- The part of a raw test case the tag filter reads: `tags` is optional,
as in the source (`tags?: string[]`). -/
structure TestCaseRaw where
  name : String
  tags : Option (List String)

/-- Tag filter `filterByTags(tests, filterTags)`: all tests when the
filter is empty, otherwise the tests whose (declared) tags meet the
filter; `t.tags?.some(...)` is `undefined`, hence falsy, when a test
declares no tags. -/
def filterByTags (tests : List TestCaseRaw) (filterTags : List String) :
    List TestCaseRaw :=
  if filterTags.isEmpty then tests
  else
    tests.filter fun t =>
      match t.tags with
      | some tags => tags.any (fun tag => filterTags.contains tag)
      | none => false

/-! ### Boundary and negative case generator (src/utils/boundary-generator.ts) -/

/-- One field specification.  `type` is a plain string, as in the
loosely-typed source (the switch has no default branch, so an unknown
type contributes no type-specific cases).  `required` is read by
truthiness, so the absent case and `false` coincide. -/
structure FieldSpec where
  name : String
  type : String
  minLength : Option Nat
  maxLength : Option Nat
  min : Option Int
  max : Option Int
  required : Bool

/-- One generated boundary case. -/
structure BoundaryCase where
  description : String
  field : String
  value : JsVal
  expectValid : Bool

/-- The string `'a'.repeat(n)`. -/
def repeatA (n : Nat) : String :=
  String.mk (List.replicate n 'a')

/-- The fixed unicode sample of `boundaryStrings.unicode`. -/
def unicodeSample : String := "日本語テスト 🎉🚀"

/-- The fixed HTML-injection sample of `boundaryStrings.htmlInjection`. -/
def htmlInjectionSample : String := "<script>alert(\"xss\")</script>"

/-- The fixed SQL-injection sample of `boundaryStrings.sqlInjection`
(the leading character is an ASCII apostrophe). -/
def sqlInjectionSample : String := "\x27 OR 1=1; DROP TABLE users; --"

/-- JavaScript `Number.MAX_SAFE_INTEGER`. -/
def maxSafeInteger : Int := 9007199254740991

/-- Boundary cases for one field specification, in the push
order of the source: the required cases first, then the type-specific cases. -/
def generateBoundaryCases (spec : FieldSpec) : List BoundaryCase :=
  let name := spec.name
  let requiredCases : List BoundaryCase :=
    if spec.required then
      [⟨name ++ ": missing (undefined)", name, .undef, false⟩,
       ⟨name ++ ": null", name, .null, false⟩]
    else []
  let typeCases : List BoundaryCase :=
    if spec.type = "string" then
      let mn := spec.minLength.getD 0
      let mx := spec.maxLength.getD 255
      [⟨name ++ ": empty string", name, .str "", decide (mn = 0)⟩,
       ⟨name ++ ": at minLength (" ++ Nat.repr mn ++ ")", name, .str (repeatA mn), true⟩,
       ⟨name ++ ": below minLength", name, .str (repeatA (mn - 1)), decide (mn ≤ 1)⟩,
       ⟨name ++ ": at maxLength (" ++ Nat.repr mx ++ ")", name, .str (repeatA mx), true⟩,
       ⟨name ++ ": above maxLength", name, .str (repeatA (mx + 1)), false⟩,
       ⟨name ++ ": unicode", name, .str unicodeSample, true⟩,
       ⟨name ++ ": XSS attempt", name, .str htmlInjectionSample, false⟩,
       ⟨name ++ ": SQL injection", name, .str sqlInjectionSample, false⟩]
    else if spec.type = "email" then
      [⟨name ++ ": valid email", name, .str "user@example.com", true⟩,
       ⟨name ++ ": no @", name, .str "userexample.com", false⟩,
       ⟨name ++ ": double @", name, .str "user@@example.com", false⟩,
       ⟨name ++ ": no domain", name, .str "user@", false⟩,
       ⟨name ++ ": no local", name, .str "@example.com", false⟩,
       ⟨name ++ ": spaces", name, .str "user @example.com", false⟩,
       ⟨name ++ ": unicode domain", name, .str "user@例え.jp", true⟩]
    else if spec.type = "number" ∨ spec.type = "integer" then
      let mn := spec.min.getD (-maxSafeInteger)
      let mx := spec.max.getD maxSafeInteger
      [⟨name ++ ": zero", name, .num 0, decide (mn ≤ 0 ∧ 0 ≤ mx)⟩,
       ⟨name ++ ": at min (" ++ toString mn ++ ")", name, .num (mn : Rat), true⟩,
       ⟨name ++ ": below min", name, .num ((mn - 1 : Int) : Rat), false⟩,
       ⟨name ++ ": at max (" ++ toString mx ++ ")", name, .num (mx : Rat), true⟩,
       ⟨name ++ ": above max", name, .num ((mx + 1 : Int) : Rat), false⟩,
       ⟨name ++ ": negative", name, .num (-1 : Rat), decide (mn ≤ -1)⟩,
       ⟨name ++ ": NaN", name, .nan, false⟩,
       ⟨name ++ ": string instead", name, .str "not-a-number", false⟩]
      ++ (if spec.type = "integer" then
            [⟨name ++ ": float", name, .num (1.5 : Rat), false⟩]
          else [])
    else if spec.type = "boolean" then
      [⟨name ++ ": true", name, .bool true, true⟩,
       ⟨name ++ ": false", name, .bool false, true⟩,
       ⟨name ++ ": string \"true\"", name, .str "true", false⟩,
       ⟨name ++ ": number 1", name, .num 1, false⟩,
       ⟨name ++ ": number 0", name, .num 0, false⟩]
    else []
  requiredCases ++ typeCases

/-- JavaScript object spread `\x7b...payload, [k]: v\x7d`: an existing
key keeps its position and takes the new value, a fresh key is appended. -/
def setKey (payload : List (String × JsVal)) (k : String) (v : JsVal) :
    List (String × JsVal) :=
  if payload.any (fun p => p.1 == k) then
    payload.map (fun p => if p.1 == k then (p.1, v) else p)
  else payload ++ [(k, v)]

/-- One negative payload: the description of the invalid case it embeds
and the full payload with that one field overridden. -/
structure NegativePayload where
  description : String
  payload : List (String × JsVal)

/-- Negative payload generator `generateNegativePayloads(validPayload,
specs)`: for every spec in order, every `expectValid=false` boundary
case in order, the valid payload with the field of that case overridden. -/
def generateNegativePayloads (validPayload : List (String × JsVal))
    (specs : List FieldSpec) : List NegativePayload :=
  specs.flatMap fun spec =>
    ((generateBoundaryCases spec).filter (fun c => !c.expectValid)).map
      fun c => ⟨c.description, setKey validPayload c.field c.value⟩

/-- Quick integer range boundaries `integerBoundaries(min, max)`;
`Math.floor((min + max) / 2)` is floor division by 2. -/
def integerBoundaries (min max : Int) : List Int :=
  [min - 1, min, min + 1, Int.fdiv (min + max) 2, max - 1, max, max + 1]

/-! ### HTTP assertion engine (src/core/api-runner.ts)

The assertion section of a generated API test is a straight-line
sequence of Playwright `expect(...)` calls; a failing `expect` throws,
so the section evaluates its checks in program order and stops at the
first failure.  The embedding first lists the activated checks with
their boolean outcomes in program order (`activeChecks`) and then takes
the first failing one (`firstFailure`), which is exactly the observable
behaviour of the straight-line throwing code, since no check writes any
state read by a later check.  The AJV schema validator (`sv`) and the
regular-expression matcher (`rm`) are external collaborators passed as
functions. -/

/-- Which sub-assertion of a `bodyPath[]` entry a check belongs to. -/
inductive PathSub where
  | eqCheck
  | containsCheck
  | typeCheck
  | minLenCheck
  | maxLenCheck
  | regexCheck
deriving DecidableEq

/-- Identity of one activated assertion of the engine. -/
inductive CheckId where
  | status
  | statusRange
  | bodyContains
  | bodyExact
  | bodySchema
  | bodyPath (idx : Nat) (sub : PathSub)
  | header (name : String)
  | responseTime
deriving DecidableEq

/-- One `bodyPath[]` entry of an expectation. -/
structure BodyPathSpec where
  path : String
  equals : Option JsVal
  contains : Option JsVal
  type : Option String
  minLength : Option Int
  maxLength : Option Int
  regex : Option String

/-- A declared expectation record: every key optional, each present key
activating an independent assertion. -/
structure ApiExpectation where
  status : Option Int
  statusRange : Option (Int × Int)
  bodyContains : Option JsVal
  bodyExact : Option JsVal
  bodySchema : Option JsVal
  bodyPath : Option (List BodyPathSpec)
  headers : Option (List (String × String))
  responseTime : Option Int

/-- The observed response the engine judges: status, headers (names
already lowercased, as Playwright returns them), parsed body, elapsed
milliseconds. -/
structure Observed where
  status : Int
  headers : List (String × String)
  body : JsVal
  elapsed : Int

/-- JavaScript `.length` where the engine reads it: string length or
array length; other values have no length (the comparison with
`undefined` then fails, as does the check in the source). -/
def jsLength : JsVal → Option Nat
  | .str s => some s.length
  | .arr xs => some xs.length
  | _ => none

/-- Fueled plain structural equality, modelling the Playwright `toEqual`
for the `bodyPath[].equals` sub-check (no claim exercises its corner
cases). -/
def beqValF : Nat → JsVal → JsVal → Bool
  | 0, _, _ => false
  | f + 1, a, b =>
    match a, b with
    | .undef, .undef => true
    | .null, .null => true
    | .bool x, .bool y => x == y
    | .num x, .num y => x == y
    | .nan, .nan => true
    | .str x, .str y => x == y
    | .arr xs, .arr ys =>
      (xs.length == ys.length) && (List.zip xs ys).all (fun p => beqValF f p.1 p.2)
    | .obj fs, .obj gs =>
      (fs.length == gs.length) &&
        (List.zip fs gs).all (fun p => p.1.1 == p.2.1 && beqValF f p.1.2 p.2.2)
    | .protoFn x, .protoFn y => x == y
    | .protoObj, .protoObj => true
    | _, _ => false

/-- Structural equality used for the `equals` sub-check. -/
def toEqualModel (a b : JsVal) : Bool :=
  beqValF (size a + size b + 1) a b

/-- Fueled JavaScript `String(value)` coercion, used by the `regex`
sub-check (non-integer number rendering is approximate; no claim
depends on it). -/
def jsToStringF : Nat → JsVal → String
  | 0, _ => ""
  | f + 1, v =>
    match v with
    | .undef => "undefined"
    | .null => "null"
    | .bool true => "true"
    | .bool false => "false"
    | .num q => toString q
    | .nan => "NaN"
    | .str s => s
    | .arr xs =>
      String.intercalate ","
        (xs.map fun x =>
          match x with
          | .undef => ""
          | .null => ""
          | other => jsToStringF f other)
    | .obj _ => "[object Object]"
    | .protoFn m => protoFnString m
    | .protoObj => "[object Object]"

/-- JavaScript `String(value)`. -/
def jsToString (v : JsVal) : String :=
  jsToStringF (size v + 1) v

/-- The activated sub-checks of one `bodyPath[]` entry, in program
order.  A present `type` or `regex` key is read by truthiness, so the
empty string deactivates it, matching the source checks `if (bp.type)` and
`if (bp.regex)`. -/
def pathEntryChecks (rm : String → String → Bool) (body : JsVal) (idx : Nat)
    (bp : BodyPathSpec) : List (CheckId × Bool) :=
  let actual := deepGet body bp.path
  (match bp.equals with
   | some v => [(CheckId.bodyPath idx PathSub.eqCheck, toEqualModel actual v)]
   | none => [])
  ++ (match bp.contains with
      | some v => [(CheckId.bodyPath idx PathSub.containsCheck, deepContains actual v)]
      | none => [])
  ++ (match bp.type with
      | some t =>
        if t ≠ "" then [(CheckId.bodyPath idx PathSub.typeCheck, typeOf actual == t)]
        else []
      | none => [])
  ++ (match bp.minLength with
      | some m =>
        [(CheckId.bodyPath idx PathSub.minLenCheck,
          match jsLength actual with
          | some L => decide (m ≤ (L : Int))
          | none => false)]
      | none => [])
  ++ (match bp.maxLength with
      | some m =>
        [(CheckId.bodyPath idx PathSub.maxLenCheck,
          match jsLength actual with
          | some L => decide ((L : Int) ≤ m)
          | none => false)]
      | none => [])
  ++ (match bp.regex with
      | some r =>
        if r ≠ "" then [(CheckId.bodyPath idx PathSub.regexCheck, rm r (jsToString actual))]
        else []
      | none => [])

/-- Every activated check of the assertion section with its outcome, in
program order: status, statusRange, bodyContains, bodyExact, bodySchema,
bodyPath entries, headers, responseTime.  A present `responseTime` of 0
is falsy and activates nothing (`if (exp.responseTime)`); the two
statusRange comparisons are bundled as one check. -/
def activeChecks (sv : JsVal → JsVal → Bool) (rm : String → String → Bool)
    (exp : ApiExpectation) (obs : Observed) : List (CheckId × Bool) :=
  (match exp.status with
   | some s => [(CheckId.status, obs.status == s)]
   | none => [])
  ++ (match exp.statusRange with
      | some r => [(CheckId.statusRange, decide (r.1 ≤ obs.status ∧ obs.status ≤ r.2))]
      | none => [])
  ++ (match exp.bodyContains with
      | some c => [(CheckId.bodyContains, deepContains obs.body c)]
      | none => [])
  ++ (match exp.bodyExact with
      | some e => [(CheckId.bodyExact, deepEqual obs.body e)]
      | none => [])
  ++ (match exp.bodySchema with
      | some sch => [(CheckId.bodySchema, sv sch obs.body)]
      | none => [])
  ++ (match exp.bodyPath with
      | some bps => (bps.enum.map (fun p => pathEntryChecks rm obs.body p.1 p.2)).flatten
      | none => [])
  ++ (match exp.headers with
      | some hs =>
        hs.map fun kv =>
          (CheckId.header kv.1, (obs.headers.lookup kv.1.toLower) == some kv.2)
      | none => [])
  ++ (match exp.responseTime with
      | some t => if t ≠ 0 then [(CheckId.responseTime, decide (obs.elapsed ≤ t))] else []
      | none => [])

/-- The outcome of the engine: the first failing check (the one whose
`expect` throws), or `none` when the test case passes. -/
def firstFailure (sv : JsVal → JsVal → Bool) (rm : String → String → Bool)
    (exp : ApiExpectation) (obs : Observed) : Option CheckId :=
  ((activeChecks sv rm exp obs).find? (fun c => !c.2)).map Prod.fst

/-! ### UI action dispatcher (src/core/ui-runner.ts) -/

/-- One declared UI action. -/
structure UiAction where
  action : String
  selector : Option String
  value : Option JsVal
  options : Option JsVal
  description : Option String

/-- The host page capability (Playwright): one entry per action kind of
the fixed vocabulary, each receiving the declared action and either
succeeding or failing with a message (a thrown page error or a failed
`expect`). -/
structure Host where
  goto : UiAction → Except String Unit
  click : UiAction → Except String Unit
  fill : UiAction → Except String Unit
  select : UiAction → Except String Unit
  check : UiAction → Except String Unit
  uncheck : UiAction → Except String Unit
  hover : UiAction → Except String Unit
  press : UiAction → Except String Unit
  scroll : UiAction → Except String Unit
  upload : UiAction → Except String Unit
  evaluate : UiAction → Except String Unit
  wait : UiAction → Except String Unit
  waitForSelector : UiAction → Except String Unit
  waitForURL : UiAction → Except String Unit
  assertVisible : UiAction → Except String Unit
  assertHidden : UiAction → Except String Unit
  assertText : UiAction → Except String Unit
  assertValue : UiAction → Except String Unit
  assertURL : UiAction → Except String Unit
  assertTitle : UiAction → Except String Unit
  assertCount : UiAction → Except String Unit
  screenshot : UiAction → Except String Unit

/-- The fixed action vocabulary, in the case order of the source. -/
def knownActions : List String :=
  ["goto", "click", "fill", "select", "check", "uncheck", "hover", "press",
   "scroll", "upload", "evaluate", "wait", "waitForSelector", "waitForURL",
   "assertVisible", "assertHidden", "assertText", "assertValue", "assertURL",
   "assertTitle", "assertCount", "screenshot"]

/-- The action dispatcher `executeAction(page, action)`: a switch on the
action name whose known cases call the page capability and whose default
throws `Unknown UI action: "name"`. -/
def executeAction (host : Host) (a : UiAction) : Except String Unit :=
  match a.action with
  | "goto" => host.goto a
  | "click" => host.click a
  | "fill" => host.fill a
  | "select" => host.select a
  | "check" => host.check a
  | "uncheck" => host.uncheck a
  | "hover" => host.hover a
  | "press" => host.press a
  | "scroll" => host.scroll a
  | "upload" => host.upload a
  | "evaluate" => host.evaluate a
  | "wait" => host.wait a
  | "waitForSelector" => host.waitForSelector a
  | "waitForURL" => host.waitForURL a
  | "assertVisible" => host.assertVisible a
  | "assertHidden" => host.assertHidden a
  | "assertText" => host.assertText a
  | "assertValue" => host.assertValue a
  | "assertURL" => host.assertURL a
  | "assertTitle" => host.assertTitle a
  | "assertCount" => host.assertCount a
  | "screenshot" => host.screenshot a
  | _ => Except.error ("Unknown UI action: \"" ++ a.action ++ "\"")

/-- The step loop of `runUiSuite`: each step in declared order, a thrown
error propagating out of the loop (aborting the remaining steps). -/
def runSteps (host : Host) : List UiAction → Except String Unit
  | [] => Except.ok ()
  | s :: rest =>
    match executeAction host s with
    | Except.ok _ => runSteps host rest
    | Except.error e => Except.error e

/-! ## Basic lemmas: decimal keys, sizes, JSON-likeness -/

/-- Value of a most-significant-first decimal digit list. -/
def digitsVal (ds : List Char) : Nat :=
  ds.foldl (fun a c => a * 10 + (c.toNat - '0'.toNat)) 0

theorem digitsVal_append_single (l : List Char) (c : Char) :
    digitsVal (l ++ [c]) = digitsVal l * 10 + (c.toNat - '0'.toNat) := by
  simp [digitsVal, List.foldl_append]

theorem digitCh_toNat {n : Nat} (h : n < 10) : (digitCh n).toNat = '0'.toNat + n := by
  interval_cases n <;> decide

theorem digitsVal_natKeyAux : ∀ f n, n < f → digitsVal (natKeyAux f n) = n := by
  intro f
  induction f with
  | zero => intro n h; omega
  | succ f ih =>
    intro n h
    by_cases h10 : n < 10
    · simp [natKeyAux, h10, digitsVal, digitCh_toNat h10]
    · have hdiv : n / 10 < n := Nat.div_lt_self (by omega) (by omega)
      have hmod : n % 10 < 10 := Nat.mod_lt _ (by omega)
      have hdm := Nat.div_add_mod n 10
      simp only [natKeyAux, h10, if_false]
      rw [digitsVal_append_single, ih (n / 10) (by omega), digitCh_toNat hmod]
      omega

theorem natKey_injective : Function.Injective natKey := by
  intro m n h
  have hm : digitsVal (natKey m).data = m := digitsVal_natKeyAux (m + 1) m (by omega)
  have hn : digitsVal (natKey n).data = n := digitsVal_natKeyAux (n + 1) n (by omega)
  rw [← hm, ← hn, h]

theorem keysOf_nodup {a : JsVal} (ha : (∀ fs, a = .obj fs → (fs.map Prod.fst).Nodup)) :
    (keysOf a).Nodup := by
  cases a with
  | obj fs => exact ha fs rfl
  | arr xs => exact (List.nodup_range _).map natKey_injective
  | undef => exact List.nodup_nil
  | null => exact List.nodup_nil
  | bool b => exact List.nodup_nil
  | num q => exact List.nodup_nil
  | nan => exact List.nodup_nil
  | str s => exact List.nodup_nil
  | protoFn m => exact List.nodup_nil
  | protoObj => exact List.nodup_nil

theorem size_lt_sizeArr {x : JsVal} : ∀ {xs : List JsVal}, x ∈ xs → size x < sizeArr xs + 1
  | y :: ys, h => by
    rcases List.mem_cons.mp h with h | h
    · subst h; simp [sizeArr]; omega
    · have := size_lt_sizeArr h
      simp [sizeArr]; omega

theorem size_lt_sizeObj {v : JsVal} :
    ∀ {fs : List (String × JsVal)} {k : String}, (k, v) ∈ fs → size v < sizeObj fs + 1
  | g :: gs, k, h => by
    rcases List.mem_cons.mp h with h | h
    · rw [← h]; simp [sizeObj]; omega
    · have := size_lt_sizeObj h
      simp [sizeObj]; omega

theorem size_mem_arr {x : JsVal} {xs : List JsVal} (h : x ∈ xs) :
    size x < size (.arr xs) := by
  have := size_lt_sizeArr h
  simp [size]; omega

theorem size_mem_obj {v : JsVal} {fs : List (String × JsVal)} {k : String}
    (h : (k, v) ∈ fs) : size v < size (.obj fs) := by
  have := size_lt_sizeObj h
  simp [size]; omega

/-- JSON-like values: the shapes a parsed JSON document can take — no
`undefined`, no `NaN`, and objects with distinct keys (JavaScript
objects cannot carry duplicate keys). -/
inductive JsonLike : JsVal → Prop where
  | null : JsonLike .null
  | bool (b : Bool) : JsonLike (.bool b)
  | num (q : Rat) : JsonLike (.num q)
  | str (s : String) : JsonLike (.str s)
  | arr (xs : List JsVal) : (∀ x ∈ xs, JsonLike x) → JsonLike (.arr xs)
  | obj (fs : List (String × JsVal)) : (∀ f ∈ fs, JsonLike f.2) →
      (fs.map Prod.fst).Nodup → JsonLike (.obj fs)

theorem JsonLike.ne_undef {a : JsVal} (h : JsonLike a) : a ≠ .undef := by
  cases h <;> simp

theorem JsonLike.keys_nodup {a : JsVal} (h : JsonLike a) : (keysOf a).Nodup := by
  apply UTE.keysOf_nodup
  intro fs hfs
  cases h <;> simp_all

theorem typeOf_ne_undefined {v : JsVal} (h : v ≠ .undef) : typeOf v ≠ "undefined" := by
  cases v <;> simp_all [typeOf]

/-- Object property lookup misses exactly outside the key list. -/
theorem getProp_obj_not_mem {fs : List (String × JsVal)} {k : String}
    (h : k ∉ fs.map Prod.fst) : getProp (.obj fs) k = .undef := by
  have : fs.lookup k = none := by
    rw [List.lookup_eq_none_iff]
    intro p hp
    simp only [bne_iff_ne, ne_eq]
    intro hk
    exact h (List.mem_map.mpr ⟨p, hp, hk.symm⟩)
  simp [getProp, this]

/-- Object property lookup hits a declared field. -/
theorem getProp_obj_mem {fs : List (String × JsVal)} {k : String}
    (h : k ∈ fs.map Prod.fst) :
    ∃ v, (k, v) ∈ fs ∧ getProp (.obj fs) k = v := by
  have hsome : (fs.lookup k).isSome := by
    rw [List.lookup_isSome_iff]
    rcases List.mem_map.mp h with ⟨p, hp, hk⟩
    exact ⟨p, hp, by simp [hk]⟩
  rcases Option.isSome_iff_exists.mp hsome with ⟨v, hv⟩
  refine ⟨v, ?_, by simp [getProp, hv]⟩
  rcases List.lookup_eq_some_iff.mp hv with ⟨l₁, l₂, hl, -⟩
  rw [hl]; simp

/-- Array property lookup misses outside the index-key list. -/
theorem getProp_arr_not_mem {xs : List JsVal} {k : String}
    (h : k ∉ keysOf (.arr xs)) : getProp (.arr xs) k = .undef := by
  have : (List.range xs.length).find? (fun i => natKey i == k) = none := by
    rw [List.find?_eq_none]
    intro i hi
    simp only [beq_iff_eq, ne_eq]
    intro hk
    exact h (by simp only [keysOf]; exact List.mem_map.mpr ⟨i, hi, hk⟩)
  simp [getProp, this]

/-- Array property lookup on an index key yields an element. -/
theorem getProp_arr_mem {xs : List JsVal} {k : String}
    (h : k ∈ keysOf (.arr xs)) :
    ∃ x ∈ xs, getProp (.arr xs) k = x := by
  simp only [keysOf] at h
  rcases List.mem_map.mp h with ⟨i, hi, hk⟩
  have hsome : ((List.range xs.length).find? (fun j => natKey j == k)).isSome := by
    rw [List.find?_isSome]
    exact ⟨i, hi, by simp [hk]⟩
  rcases Option.isSome_iff_exists.mp hsome with ⟨j, hj⟩
  have hjmem : j ∈ List.range xs.length := List.mem_of_find?_eq_some hj
  have hjlt : j < xs.length := List.mem_range.mp hjmem
  refine ⟨xs.getD j .undef, ?_, by simp [getProp, hj]⟩
  rw [List.getD_eq_getElem _ _ hjlt]
  exact List.getElem_mem hjlt

/-- Any access on a key outside the key list yields `undefined`. -/
theorem getProp_not_mem {a : JsVal} {k : String} (h : k ∉ keysOf a) :
    getProp a k = .undef := by
  cases a with
  | obj fs => exact getProp_obj_not_mem (by simpa [keysOf] using h)
  | arr xs => exact getProp_arr_not_mem h
  | undef => rfl
  | null => rfl
  | bool b => rfl
  | num q => rfl
  | nan => rfl
  | str s => rfl
  | protoFn m => rfl
  | protoObj => rfl

/-- On a JSON-like container, access on a listed key yields a JSON-like,
defined value. -/
theorem getProp_mem {a : JsVal} {k : String} (ha : JsonLike a) (h : k ∈ keysOf a) :
    JsonLike (getProp a k) ∧ getProp a k ≠ .undef := by
  cases ha with
  | arr xs hxs =>
    rcases getProp_arr_mem h with ⟨x, hx, hg⟩
    rw [hg]
    exact ⟨hxs x hx, (hxs x hx).ne_undef⟩
  | obj fs hfs _ =>
    rcases getProp_obj_mem (by simpa [keysOf] using h) with ⟨v, hv, hg⟩
    rw [hg]
    exact ⟨hfs (k, v) hv, (hfs (k, v) hv).ne_undef⟩
  | null => simp [keysOf] at h
  | bool b => simp [keysOf] at h
  | num q => simp [keysOf] at h
  | str s => simp [keysOf] at h

/-- Size bound for property access on a container. -/
theorem size_getProp {a : JsVal} {k : String}
    (h : typeOf a = "object") (hn : a ≠ .null) : size (getProp a k) < size a := by
  cases a with
  | arr xs =>
    by_cases hk : k ∈ keysOf (.arr xs)
    · rcases getProp_arr_mem hk with ⟨x, hx, hg⟩
      rw [hg]; exact size_mem_arr hx
    · rw [getProp_arr_not_mem hk]; simp [size]
  | obj fs =>
    by_cases hk : k ∈ keysOf (.obj fs)
    · rcases getProp_obj_mem (by simpa [keysOf] using hk) with ⟨v, hv, hg⟩
      rw [hg]; exact size_mem_obj hv
    · rw [getProp_obj_not_mem (by simpa [keysOf] using hk)]; simp [size]
  | undef => simp [typeOf] at h
  | null => exact absurd rfl hn
  | bool b => simp [typeOf] at h
  | num q => simp [typeOf] at h
  | nan => simp [typeOf] at h
  | str s => simp [typeOf] at h
  | protoFn m => simp [typeOf] at h
  | protoObj => simp [getProp, size]

/-! ## deepEqual: reflexivity and symmetry on JSON-like values -/

theorem strictEq_symm (a b : JsVal) : strictEq a b = strictEq b a := by
  cases a <;> cases b <;> simp [strictEq, eq_comm]

theorem deepEqualF_undef_right (f : Nat) {v : JsVal} (h : v ≠ .undef) :
    deepEqualF f v .undef = false := by
  cases f with
  | zero => rfl
  | succ f => cases v <;> simp_all [deepEqualF, strictEq, isNullV, typeOf]

theorem zip_self (xs : List JsVal) : List.zip xs xs = xs.map (fun x => (x, x)) := by
  induction xs with
  | nil => rfl
  | cons x xs ih => simp [ih]

theorem deepEqualF_refl : ∀ (f : Nat), ∀ {a : JsVal}, JsonLike a → size a < f →
    deepEqualF f a a = true := by
  intro f
  induction f with
  | zero => intro a _ h; omega
  | succ f ih =>
    intro a ha hsize
    cases ha with
    | null => simp [deepEqualF, strictEq]
    | bool b => simp [deepEqualF, strictEq]
    | num q => simp [deepEqualF, strictEq]
    | str s => simp [deepEqualF, strictEq]
    | arr xs hxs =>
      simp only [deepEqualF, strictEq, isNullV, typeOf, Bool.or_self, Bool.false_eq_true,
        if_false, ne_eq, not_true_eq_false, beq_self_eq_true, Bool.true_and]
      rw [zip_self]
      simp only [List.all_eq_true, List.mem_map]
      rintro p ⟨x, hx, rfl⟩
      have h1 : size x < size (.arr xs) := size_mem_arr hx
      show deepEqualF f x x = true
      exact ih (hxs x hx) (by omega)
    | obj fs hf hnd =>
      have hobj : JsonLike (.obj fs) := .obj fs hf hnd
      simp only [deepEqualF, strictEq, isNullV, typeOf, Bool.or_self, Bool.false_eq_true,
        if_false, ne_eq, not_true_eq_false, beq_self_eq_true, Bool.true_and, if_true,
        List.all_eq_true]
      intro k hk
      have h1 : size (getProp (.obj fs) k) < size (.obj fs) :=
        size_getProp rfl (by simp)
      exact ih (getProp_mem hobj hk).1 (by omega)

theorem keysBranch_symm {f : Nat} {a b : JsVal}
    (ha : JsonLike a) (hb : JsonLike b)
    (ih : ∀ (x y : JsVal), JsonLike x → JsonLike y →
        deepEqualF f x y = true → deepEqualF f y x = true)
    (hlen : (keysOf a).length = (keysOf b).length)
    (hall : ∀ k ∈ keysOf a, deepEqualF f (getProp a k) (getProp b k) = true) :
    (keysOf b).length = (keysOf a).length ∧
      ∀ k ∈ keysOf b, deepEqualF f (getProp b k) (getProp a k) = true := by
  have hsub : keysOf a ⊆ keysOf b := by
    intro k hk
    by_contra hkb
    have hbu : getProp b k = .undef := getProp_not_mem hkb
    have hmem := getProp_mem ha hk
    have hcontra := hall k hk
    rw [hbu, deepEqualF_undef_right f hmem.2] at hcontra
    exact Bool.false_ne_true hcontra
  have hperm : List.Perm (keysOf a) (keysOf b) :=
    (List.subperm_of_subset ha.keys_nodup hsub).perm_of_length_le (le_of_eq hlen.symm)
  refine ⟨hlen.symm, ?_⟩
  intro k hk
  have hka : k ∈ keysOf a := hperm.mem_iff.mpr hk
  exact ih _ _ (getProp_mem ha hka).1 (getProp_mem hb hk).1 (hall k hka)

theorem deepEqualF_symm_true : ∀ (f : Nat), ∀ (a b : JsVal), JsonLike a → JsonLike b →
    deepEqualF f a b = true → deepEqualF f b a = true := by
  intro f
  induction f with
  | zero => intro a b _ _ h; simp [deepEqualF] at h
  | succ f ih =>
    intro a b ha hb h
    cases ha with
    | null => cases hb <;> simp_all [deepEqualF, strictEq, isNullV]
    | bool x => cases hb <;> simp_all [deepEqualF, strictEq, isNullV, typeOf, beq_iff_eq]
    | num x => cases hb <;> simp_all [deepEqualF, strictEq, isNullV, typeOf, beq_iff_eq]
    | str x => cases hb <;> simp_all [deepEqualF, strictEq, isNullV, typeOf, beq_iff_eq]
    | arr xs hxs =>
      cases hb with
      | null => simp_all [deepEqualF, strictEq, isNullV]
      | bool y => simp_all [deepEqualF, strictEq, isNullV, typeOf]
      | num y => simp_all [deepEqualF, strictEq, isNullV, typeOf]
      | str y => simp_all [deepEqualF, strictEq, isNullV, typeOf]
      | arr ys hys =>
        simp only [deepEqualF, strictEq, isNullV, typeOf, Bool.or_self, Bool.false_eq_true,
          if_false, ne_eq, not_true_eq_false, beq_self_eq_true, if_true, Bool.and_eq_true,
          beq_iff_eq, List.all_eq_true] at h ⊢
        obtain ⟨hlen, hall⟩ := h
        refine ⟨hlen.symm, ?_⟩
        intro p hp
        rcases List.mem_iff_getElem.mp hp with ⟨i, hi, hpi⟩
        have hi' : i < ys.length ∧ i < xs.length := by
          rw [List.length_zip] at hi
          omega
        have hpy : p = (ys[i], xs[i]) := by
          rw [← hpi, List.getElem_zip]
        have hmemxy : (xs[i], ys[i]) ∈ List.zip xs ys := by
          apply List.mem_iff_getElem.mpr
          refine ⟨i, ?_, ?_⟩
          · rw [List.length_zip]; omega
          · rw [List.getElem_zip]
        have hx : xs[i] ∈ xs := List.getElem_mem hi'.2
        have hy : ys[i] ∈ ys := List.getElem_mem hi'.1
        rw [hpy]
        exact ih _ _ (hxs _ hx) (hys _ hy) (hall _ hmemxy)
      | obj gs hg hgnd =>
        have ha' : JsonLike (.arr xs) := .arr xs hxs
        have hb' : JsonLike (.obj gs) := .obj gs hg hgnd
        simp only [deepEqualF, strictEq, isNullV, typeOf, Bool.or_self, Bool.false_eq_true,
          if_false, ne_eq, not_true_eq_false, beq_self_eq_true, if_true, Bool.and_eq_true,
          beq_iff_eq, List.all_eq_true] at h ⊢
        exact keysBranch_symm ha' hb' ih h.1 h.2
    | obj fs hf hnd =>
      cases hb with
      | null => simp_all [deepEqualF, strictEq, isNullV]
      | bool y => simp_all [deepEqualF, strictEq, isNullV, typeOf]
      | num y => simp_all [deepEqualF, strictEq, isNullV, typeOf]
      | str y => simp_all [deepEqualF, strictEq, isNullV, typeOf]
      | arr ys hys =>
        have ha' : JsonLike (.obj fs) := .obj fs hf hnd
        have hb' : JsonLike (.arr ys) := .arr ys hys
        simp only [deepEqualF, strictEq, isNullV, typeOf, Bool.or_self, Bool.false_eq_true,
          if_false, ne_eq, not_true_eq_false, beq_self_eq_true, if_true, Bool.and_eq_true,
          beq_iff_eq, List.all_eq_true] at h ⊢
        exact keysBranch_symm ha' hb' ih h.1 h.2
      | obj gs hg hgnd =>
        have ha' : JsonLike (.obj fs) := .obj fs hf hnd
        have hb' : JsonLike (.obj gs) := .obj gs hg hgnd
        simp only [deepEqualF, strictEq, isNullV, typeOf, Bool.or_self, Bool.false_eq_true,
          if_false, ne_eq, not_true_eq_false, beq_self_eq_true, if_true, Bool.and_eq_true,
          beq_iff_eq, List.all_eq_true] at h ⊢
        exact keysBranch_symm ha' hb' ih h.1 h.2

theorem deepEqual_refl {a : JsVal} (ha : JsonLike a) : deepEqual a a = true :=
  deepEqualF_refl _ ha (by omega)

theorem deepEqual_symm {a b : JsVal} (ha : JsonLike a) (hb : JsonLike b) :
    deepEqual a b = deepEqual b a := by
  unfold deepEqual
  rw [Nat.add_comm (size b) (size a)]
  cases hab : deepEqualF (size a + size b + 1) a b with
  | true => exact (deepEqualF_symm_true _ _ _ ha hb hab).symm
  | false =>
    cases hba : deepEqualF (size a + size b + 1) b a with
    | true => rw [deepEqualF_symm_true _ _ _ hb ha hba] at hab; exact hab.symm
    | false => rfl

/-! ## Interpolation lemmas -/

theorem matchPh_not_brace {c : Char} {cs : List Char} (h : c ≠ '\x7b') :
    matchPh (c :: cs) = none := by
  cases cs with
  | nil => rfl
  | cons c2 rest => simp [matchPh, h]

theorem takeWhile_word_append {ws : List Char} (hall : ∀ c ∈ ws, isWordChar c = true)
    (l : List Char) :
    (ws ++ '\x7d' :: l).takeWhile isWordChar = ws ∧
      (ws ++ '\x7d' :: l).dropWhile isWordChar = '\x7d' :: l := by
  have h7 : isWordChar '\x7d' = false := by decide
  induction ws with
  | nil =>
    constructor
    · simp [List.takeWhile_cons, h7]
    · simp [List.dropWhile_cons, h7]
  | cons a ws ih =>
    have ha : isWordChar a = true := hall a (by simp)
    have ih' := ih fun c hc => hall c (by simp [hc])
    constructor
    · simp only [List.cons_append, List.takeWhile_cons, ha, if_true, ih'.1]
    · simp only [List.cons_append, List.dropWhile_cons, ha, if_true, ih'.2]

theorem matchPh_build {ws : List Char} (hne : ws ≠ [])
    (hall : ∀ c ∈ ws, isWordChar c = true) (rest : List Char) :
    matchPh ('\x7b' :: '\x7b' :: (ws ++ '\x7d' :: '\x7d' :: rest)) = some (ws, rest) := by
  have h := takeWhile_word_append hall ('\x7d' :: rest)
  simp only [matchPh, and_self, if_true, h.1, h.2]
  rw [if_neg (by simpa [List.isEmpty_iff] using hne)]

theorem matchPh_some_decomp : ∀ {l ws tail : List Char}, matchPh l = some (ws, tail) →
    l = '\x7b' :: '\x7b' :: (ws ++ '\x7d' :: '\x7d' :: tail) ∧ ws ≠ [] ∧
      ∀ c ∈ ws, isWordChar c = true := by
  intro l ws tail h
  match l with
  | [] => simp [matchPh] at h
  | [c] => simp [matchPh] at h
  | c1 :: c2 :: rest =>
    simp only [matchPh] at h
    by_cases hb : c1 = '\x7b' ∧ c2 = '\x7b'
    case neg => rw [if_neg hb] at h; exact absurd h (by simp)
    rw [if_pos hb] at h
    obtain ⟨rfl, rfl⟩ := hb
    by_cases hemp : (rest.takeWhile isWordChar).isEmpty
    · rw [if_pos hemp] at h; exact absurd h (by simp)
    rw [if_neg hemp] at h
    cases hd : rest.dropWhile isWordChar with
    | nil => rw [hd] at h; exact absurd h (by simp)
    | cons d1 ds =>
      cases ds with
      | nil => rw [hd] at h; exact absurd h (by simp)
      | cons d2 tl =>
        rw [hd] at h
        dsimp only at h
        by_cases hdd : d1 = '\x7d' ∧ d2 = '\x7d'
        case neg => rw [if_neg hdd] at h; exact absurd h (by simp)
        rw [if_pos hdd] at h
        obtain ⟨rfl, rfl⟩ := hdd
        simp only [Option.some.injEq, Prod.mk.injEq] at h
        obtain ⟨rfl, rfl⟩ := h
        refine ⟨?_, by simpa [List.isEmpty_iff] using hemp, ?_⟩
        · have := List.takeWhile_append_dropWhile isWordChar rest
          rw [hd] at this
          conv_lhs => rw [← this]
        · intro c hc
          have := @List.all_takeWhile _ isWordChar rest
          rw [List.all_eq_true] at this
          exact this c hc

theorem matchPh_some_length {l ws tail : List Char} (h : matchPh l = some (ws, tail)) :
    tail.length + 5 ≤ l.length := by
  obtain ⟨hl, hne, -⟩ := matchPh_some_decomp h
  subst hl
  have : 1 ≤ ws.length := List.length_pos.mpr hne
  simp [List.length_append]
  omega

theorem interpCharsF_nil (vars : List (String × String)) (f : Nat) :
    interpCharsF vars f [] = [] := by
  cases f <;> rfl

theorem interpCharsF_cons_plain (vars : List (String × String)) {c : Char}
    {cs : List Char} (f : Nat) (h : c ≠ '\x7b') :
    interpCharsF vars (f + 1) (c :: cs) = c :: interpCharsF vars f cs := by
  simp only [interpCharsF, matchPh_not_brace h]

theorem interpCharsF_cons_match (vars : List (String × String)) {l ws tail : List Char}
    (f : Nat) (h : matchPh l = some (ws, tail)) :
    interpCharsF vars (f + 1) l = phRepl vars ws ++ interpCharsF vars f tail := by
  obtain ⟨hl, -, -⟩ := matchPh_some_decomp h
  subst hl
  simp only [interpCharsF, h]

theorem interpCharsF_congr (vars : List (String × String)) :
    ∀ f₁ f₂ l, l.length ≤ f₁ → l.length ≤ f₂ →
      interpCharsF vars f₁ l = interpCharsF vars f₂ l := by
  intro f₁
  induction f₁ with
  | zero =>
    intro f₂ l h1 _
    have : l = [] := List.eq_nil_of_length_eq_zero (by omega)
    subst this
    simp [interpCharsF_nil]
  | succ g ih =>
    intro f₂ l h1 h2
    cases l with
    | nil => simp [interpCharsF_nil]
    | cons c cs =>
      cases f₂ with
      | zero => simp at h2
      | succ g₂ =>
        cases hm : matchPh (c :: cs) with
        | none => simp only [interpCharsF, hm]; rw [ih g₂ cs (by simp at h1; omega) (by simp at h2; omega)]
        | some p =>
          obtain ⟨ws, tail⟩ := p
          have hlen := matchPh_some_length hm
          simp only [List.length_cons] at hlen h1 h2
          rw [interpCharsF_cons_match vars g hm, interpCharsF_cons_match vars g₂ hm]
          rw [ih g₂ tail (by omega) (by omega)]

theorem string_data_eq {s t : String} (h : s.data = t.data) : s = t :=
  String.ext h

/-- Head-of-string placeholder whose identifier reads non-nullish (an own
mapping entry, or an inherited prototype member): the match is replaced
by the value found and scanning continues on the rest. -/
theorem interpolateString_head_mapped {vars : List (String × String)}
    {name v : String} (rest : String) (hne : name.data ≠ [])
    (hword : ∀ c ∈ name.data, isWordChar c = true)
    (hlook : jsVarLookup vars name = some v) :
    interpolateString ("\x7b\x7b" ++ name ++ "\x7d\x7d" ++ rest) vars
      = v ++ interpolateString rest vars := by
  apply string_data_eq
  have hdata : ("\x7b\x7b" ++ name ++ "\x7d\x7d" ++ rest).data
      = '\x7b' :: '\x7b' :: (name.data ++ '\x7d' :: '\x7d' :: rest.data) := by
    simp [String.data_append]
  have hm := matchPh_build hne hword rest.data
  simp only [interpolateString, hdata, String.data_append]
  have hlen : ('\x7b' :: '\x7b' :: (name.data ++ '\x7d' :: '\x7d' :: rest.data)).length
      = name.data.length + rest.data.length + 4 := by
    simp [List.length_append]
    omega
  rw [hlen]
  have : name.data.length + rest.data.length + 4 = (name.data.length + rest.data.length + 3) + 1 := by omega
  rw [this, interpCharsF_cons_match vars _ hm]
  have hphr : phRepl vars name.data = v.data := by
    have : String.mk name.data = name := string_data_eq rfl
    simp [phRepl, this, hlook]
  rw [hphr]
  rw [interpCharsF_congr vars _ rest.data.length rest.data (by omega) (le_refl _)]

/-- Head-of-string placeholder whose identifier reads nullish (no own
mapping entry and no inherited prototype member): the placeholder stays
literally and scanning continues on the rest. -/
theorem interpolateString_head_unmapped {vars : List (String × String)}
    {name : String} (rest : String) (hne : name.data ≠ [])
    (hword : ∀ c ∈ name.data, isWordChar c = true)
    (hlook : jsVarLookup vars name = none) :
    interpolateString ("\x7b\x7b" ++ name ++ "\x7d\x7d" ++ rest) vars
      = "\x7b\x7b" ++ name ++ "\x7d\x7d" ++ interpolateString rest vars := by
  apply string_data_eq
  have hdata : ("\x7b\x7b" ++ name ++ "\x7d\x7d" ++ rest).data
      = '\x7b' :: '\x7b' :: (name.data ++ '\x7d' :: '\x7d' :: rest.data) := by
    simp [String.data_append]
  have hm := matchPh_build hne hword rest.data
  simp only [interpolateString, hdata, String.data_append]
  have hlen : ('\x7b' :: '\x7b' :: (name.data ++ '\x7d' :: '\x7d' :: rest.data)).length
      = name.data.length + rest.data.length + 4 := by
    simp [List.length_append]
    omega
  rw [hlen]
  have : name.data.length + rest.data.length + 4 = (name.data.length + rest.data.length + 3) + 1 := by omega
  rw [this, interpCharsF_cons_match vars _ hm]
  have hphr : phRepl vars name.data
      = '\x7b' :: '\x7b' :: (name.data ++ ['\x7d', '\x7d']) := by
    have : String.mk name.data = name := string_data_eq rfl
    simp [phRepl, this, hlook]
  rw [hphr]
  rw [interpCharsF_congr vars _ rest.data.length rest.data (by omega) (le_refl _)]
  simp

/-- A head character that does not open a brace pair passes through. -/
theorem interpolateString_cons_plain {vars : List (String × String)} {c : Char}
    (rest : String) (h : c ≠ '\x7b') :
    interpolateString (String.singleton c ++ rest) vars
      = String.singleton c ++ interpolateString rest vars := by
  apply string_data_eq
  have hdata : (String.singleton c ++ rest).data = c :: rest.data := by
    simp [String.data_append, String.singleton]
  simp only [interpolateString, hdata, String.data_append]
  have hlen : (c :: rest.data).length = rest.data.length + 1 := by simp
  rw [hlen, interpCharsF_cons_plain vars _ h]
  simp [String.singleton]

theorem interpCharsF_zero (vars : List (String × String)) (l : List Char) :
    interpCharsF vars 0 l = l := by
  cases l <;> rfl

/-- If no suffix of the input begins a well-formed placeholder, the scan
is the identity. -/
theorem interpCharsF_id_of_noMatch (vars : List (String × String)) :
    ∀ f l, (∀ t, t <:+ l → matchPh t = none) → interpCharsF vars f l = l := by
  intro f
  induction f with
  | zero => intro l _; exact interpCharsF_zero vars l
  | succ g ih =>
    intro l h
    cases l with
    | nil => rfl
    | cons c cs =>
      simp only [interpCharsF, h _ (List.suffix_refl _)]
      rw [ih cs fun t ht => h t (ht.trans (List.suffix_cons c cs))]

/-- A string whose scan meets only unmapped placeholders is left fixed
by the scan. -/
theorem resolvedF_imp_fix (vars : List (String × String)) :
    ∀ f l, l.length ≤ f → resolvedF vars f l = true → interpCharsF vars f l = l := by
  intro f
  induction f with
  | zero =>
    intro l h _
    have : l = [] := List.eq_nil_of_length_eq_zero (by omega)
    subst this; rfl
  | succ g ih =>
    intro l hlen hr
    cases l with
    | nil => rfl
    | cons c cs =>
      cases hm : matchPh (c :: cs) with
      | none =>
        simp only [resolvedF, hm] at hr
        simp only [interpCharsF, hm]
        rw [ih cs (by simp at hlen; omega) hr]
      | some p =>
        obtain ⟨ws, tail⟩ := p
        simp only [resolvedF, hm, Bool.and_eq_true] at hr
        obtain ⟨hnone, hrt⟩ := hr
        have hlen5 := matchPh_some_length hm
        simp only [List.length_cons] at hlen5 hlen
        rw [interpCharsF_cons_match vars g hm]
        rw [ih tail (by omega) hrt]
        have hdec := matchPh_some_decomp hm
        rw [hdec.1]
        simp [phRepl, Option.isNone_iff_eq_none.mp hnone]

/-- The first non-satisfying element heads the `dropWhile` remainder. -/
theorem dropWhile_not_all {p : Char → Bool} :
    ∀ {l : List Char}, (∃ c ∈ l, p c = false) →
      ∃ c rest, l.dropWhile p = c :: rest ∧ p c = false ∧ c ∈ l := by
  intro l
  induction l with
  | nil => rintro ⟨c, hc, -⟩; simp at hc
  | cons a l ih =>
    rintro ⟨c, hc, hpc⟩
    by_cases hpa : p a
    · rcases List.mem_cons.mp hc with rfl | hcl
      · rw [hpa] at hpc; simp at hpc
      · rcases ih ⟨c, hcl, hpc⟩ with ⟨c', rest, hdw, hpc', hmem⟩
        exact ⟨c', rest, by simp [List.dropWhile_cons, hpa, hdw], hpc', by simp [hmem]⟩
    · exact ⟨a, l, by simp [List.dropWhile_cons, hpa], by simpa using hpa, by simp⟩

theorem dropWhile_append_left {p : Char → Bool} :
    ∀ {l₁ : List Char} (l₂ : List Char), l₁.dropWhile p ≠ [] →
      (l₁ ++ l₂).dropWhile p = l₁.dropWhile p ++ l₂ := by
  intro l₁
  induction l₁ with
  | nil => intro l₂ h; simp at h
  | cons a l ih =>
    intro l₂ h
    by_cases hpa : p a
    · rw [List.dropWhile_cons] at h
      simp only [hpa, if_true] at h
      simp only [List.cons_append, List.dropWhile_cons, hpa, if_true]
      exact ih l₂ h
    · simp [List.dropWhile_cons, hpa]

/-- A brace pair enclosing any non-word character (with no inner braces)
is not a placeholder match. -/
theorem matchPh_nonword_name {name : List Char}
    (hbrace : ∀ c ∈ name, c ≠ '\x7b' ∧ c ≠ '\x7d')
    (hnw : ∃ c ∈ name, isWordChar c = false) :
    matchPh ('\x7b' :: '\x7b' :: (name ++ ['\x7d', '\x7d'])) = none := by
  rcases dropWhile_not_all hnw with ⟨c0, rest0, hdw, hc0, hc0mem⟩
  have h0 : c0 ≠ '\x7d' := (hbrace c0 hc0mem).2
  have hdwapp : (name ++ ['\x7d', '\x7d']).dropWhile isWordChar
      = (c0 :: rest0) ++ ['\x7d', '\x7d'] := by
    rw [← hdw]
    exact dropWhile_append_left _ (by rw [hdw]; simp)
  simp only [matchPh, and_self, if_true]
  by_cases hemp : ((name ++ ['\x7d', '\x7d']).takeWhile isWordChar).isEmpty
  · rw [if_pos hemp]
  · rw [if_neg hemp, hdwapp]
    cases rest0 with
    | nil => simp [h0]
    | cons c1 rest1 => simp [h0]

theorem interpolateF_congr (vars : List (String × String)) :
    ∀ f₁ f₂ v, size v < f₁ → size v < f₂ →
      interpolateF vars f₁ v = interpolateF vars f₂ v := by
  intro f₁
  induction f₁ with
  | zero => intro f₂ v h1 _; omega
  | succ g ih =>
    intro f₂ v h1 h2
    cases f₂ with
    | zero => omega
    | succ g₂ =>
      cases v with
      | arr xs =>
        simp only [interpolateF]
        congr 1
        apply List.map_congr_left
        intro x hx
        have hs : size x < size (.arr xs) := size_mem_arr hx
        exact ih g₂ x (by omega) (by omega)
      | obj fs =>
        simp only [interpolateF]
        congr 1
        apply List.map_congr_left
        intro kv hkv
        have hs : size kv.2 < size (.obj fs) := @size_mem_obj kv.2 fs kv.1 (by simpa using hkv)
        have := ih g₂ kv.2 (by omega) (by omega)
        simp [this]
      | undef => rfl
      | null => rfl
      | bool b => rfl
      | num q => rfl
      | nan => rfl
      | str s => rfl
      | protoFn m => rfl
      | protoObj => rfl

theorem interpolateF_eq_interpolate (vars : List (String × String)) (g : Nat)
    (x : JsVal) (h : size x < g) : interpolateF vars g x = interpolate vars x :=
  interpolateF_congr vars g (size x + 1) x h (by omega)

/-! ## Claim theorems -/

/-- Claim C9: for all integers `min` and `max`, `integerBoundaries(min, max)`
returns exactly the 7-element ordered sequence `[min-1, min, min+1,
floor((min+max)/2), max-1, max, max+1]` (`Int.fdiv` by 2 is the floor of
the exact midpoint, matching `Math.floor((min+max)/2)`), and in
particular `integerBoundaries 0 150 = [-1, 0, 1, 75, 149, 150, 151]`. -/
theorem c9_integerBoundaries :
    (∀ min max : Int, integerBoundaries min max =
      [min - 1, min, min + 1, Int.fdiv (min + max) 2, max - 1, max, max + 1]) ∧
    integerBoundaries 0 150 = [-1, 0, 1, 75, 149, 150, 151] :=
  ⟨fun _ _ => rfl, by decide⟩

/-- Claim C5: the tag filter is the identity (order preserved) on an
empty request list; otherwise it keeps, in order (a sublist of the
input), exactly the tests declaring at least one requested tag, and a
test with no declared tags is excluded. -/
theorem c5_filterByTags :
    ∀ (tests : List TestCaseRaw) (ftags : List String),
      (ftags = [] → filterByTags tests ftags = tests) ∧
      List.Sublist (filterByTags tests ftags) tests ∧
      (ftags ≠ [] → ∀ t, t ∈ filterByTags tests ftags ↔
        (t ∈ tests ∧ ∃ tags, t.tags = some tags ∧ ∃ tag ∈ tags, tag ∈ ftags)) := by
  intro tests ftags
  refine ⟨fun h => by simp [filterByTags, h], ?_, ?_⟩
  · by_cases h : ftags.isEmpty
    · simp only [filterByTags, h, if_true]
      exact List.Sublist.refl tests
    · simp only [filterByTags, h, Bool.false_eq_true, if_false]
      exact List.filter_sublist tests
  · intro hne t
    have hf : ¬(ftags.isEmpty = true) := by simp [List.isEmpty_iff, hne]
    simp only [filterByTags, hf, Bool.false_eq_true, if_false]
    rw [List.mem_filter]
    apply and_congr_right
    intro _
    cases htags : t.tags with
    | none => simp [htags]
    | some tags => simp [htags, List.any_eq_true]

/-- Claim C5 witness: the filter at concrete inputs, identity on the
empty request and membership under a matching tag. -/
theorem c5_witness :
    filterByTags [⟨"t1", some ["smoke"]⟩] [] = [⟨"t1", some ["smoke"]⟩] ∧
    (⟨"t1", some ["smoke"]⟩ : TestCaseRaw) ∈
      filterByTags [⟨"t1", some ["smoke"]⟩, ⟨"t2", none⟩] ["smoke"] := by
  constructor
  · exact (c5_filterByTags [⟨"t1", some ["smoke"]⟩] []).1 rfl
  · exact ((c5_filterByTags [⟨"t1", some ["smoke"]⟩, ⟨"t2", none⟩] ["smoke"]).2.2
      (by simp) ⟨"t1", some ["smoke"]⟩).mpr
      ⟨by simp, ["smoke"], rfl, "smoke", by simp, by simp⟩

/-- Claim C10 (implicit): interpolation only rewrites placeholders whose
braces enclose a nonempty run of word characters: if the enclosed text
contains no brace and at least one non-word character, the whole
placeholder is left byte-for-byte unchanged, for every variable mapping
(in particular one containing that exact text as a key). -/
theorem c10_nonword_placeholder_unchanged :
    ∀ (vars : List (String × String)) (name : String),
      (∀ c ∈ name.data, c ≠ '\x7b' ∧ c ≠ '\x7d') →
      (∃ c ∈ name.data, isWordChar c = false) →
      interpolateString ("\x7b\x7b" ++ name ++ "\x7d\x7d") vars
        = "\x7b\x7b" ++ name ++ "\x7d\x7d" := by
  intro vars name hbrace hnw
  apply string_data_eq
  have hdata : ("\x7b\x7b" ++ name ++ "\x7d\x7d").data
      = '\x7b' :: '\x7b' :: (name.data ++ ['\x7d', '\x7d']) := by simp
  simp only [interpolateString, hdata]
  apply interpCharsF_id_of_noMatch
  intro t ht
  rcases List.suffix_cons_iff.mp ht with rfl | ht1
  · exact matchPh_nonword_name hbrace hnw
  rcases List.suffix_cons_iff.mp ht1 with rfl | ht2
  · cases hname : name.data with
    | nil => rcases hnw with ⟨c, hc, -⟩; rw [hname] at hc; simp at hc
    | cons c0 rest0 =>
      have h0 : c0 ≠ '\x7b' := (hbrace c0 (by rw [hname]; simp)).1
      simp [matchPh, h0]
  · cases t with
    | nil => rfl
    | cons c ts =>
      have hc : c ∈ name.data ++ ['\x7d', '\x7d'] := ht2.subset (by simp)
      have hcne : c ≠ '\x7b' := by
        rcases List.mem_append.mp hc with h | h
        · exact (hbrace c h).1
        · simp at h; rw [h]; decide
      exact matchPh_not_brace hcne

/-- Claim C10 witness: the placeholder with the hyphenated identifier is
left unchanged even though the mapping carries that exact key. -/
theorem c10_witness :
    interpolateString ("\x7b\x7b" ++ "my-var" ++ "\x7d\x7d") [("my-var", "X")]
      = "\x7b\x7b" ++ "my-var" ++ "\x7d\x7d" :=
  c10_nonword_placeholder_unchanged [("my-var", "X")] "my-var" (by decide)
    ⟨'-', by decide, by decide⟩

/-- Claim C3 counterexample: interpolation is not idempotent as
universally stated — with `vars = a ↦ "\x7b\x7bb\x7d\x7d", b ↦ "X"`, one
pass over `"\x7b\x7ba\x7d\x7d"` yields `"\x7b\x7bb\x7d\x7d"` and a second
pass yields `"X"`. -/
theorem c3_counterexample :
    interpolateString
        (interpolateString "\x7b\x7ba\x7d\x7d" [("a", "\x7b\x7bb\x7d\x7d"), ("b", "X")])
        [("a", "\x7b\x7bb\x7d\x7d"), ("b", "X")]
      ≠ interpolateString "\x7b\x7ba\x7d\x7d" [("a", "\x7b\x7bb\x7d\x7d"), ("b", "X")] := by
  decide

/-- Claim C3 (amended): interpolation is idempotent once every
remaining placeholder is one a pass leaves alone — whenever every
placeholder remaining in the output of the first pass has an identifier
whose property read is nullish (no entry in the mapping and no inherited
`Object.prototype` member of that name), a second pass is the identity.
(In general a substituted value can introduce or complete a placeholder
whose key is mapped — as the counterexample shows — or whose identifier
names an inherited member, and a second pass then substitutes again.) -/
theorem c3_interpolate_idempotent_once_resolved :
    ∀ (s : String) (vars : List (String × String)),
      resolvedString (interpolateString s vars) vars = true →
      interpolateString (interpolateString s vars) vars = interpolateString s vars := by
  intro s vars h
  apply string_data_eq
  show interpCharsF vars (interpolateString s vars).data.length (interpolateString s vars).data
      = (interpolateString s vars).data
  exact resolvedF_imp_fix vars _ _ (le_refl _) h

/-- Claim C3 witness: idempotence at a mapping whose value is free of
placeholders. -/
theorem c3_witness :
    interpolateString (interpolateString "\x7b\x7ba\x7d\x7d" [("a", "hello")]) [("a", "hello")]
      = interpolateString "\x7b\x7ba\x7d\x7d" [("a", "hello")] :=
  c3_interpolate_idempotent_once_resolved "\x7b\x7ba\x7d\x7d" [("a", "hello")] (by decide)

/-- Claim C2 counterexample: the claim promises that an identifier with
no entry in the mapping is left as the literal placeholder, but the
property read `vars[key]` falls back on the `Object.prototype` chain, so
`\x7b\x7bconstructor\x7d\x7d` under the empty mapping is substituted
(with the string coercion of the inherited `constructor` function)
instead of surviving unchanged. -/
theorem c2_counterexample :
    interpolateString "\x7b\x7bconstructor\x7d\x7d" []
      ≠ "\x7b\x7bconstructor\x7d\x7d" := by
  decide

/-- Claim C2 (amended): deep interpolation passes non-string
non-container leaves through unchanged, rewrites string leaves with the
string-level scan, recurses through arrays and objects, and at the
string level replaces a `\x7b\x7bident\x7d\x7d` occurrence whose
identifier has an entry by the value of the variable (an own entry
shadows the prototype), keeps an occurrence whose identifier has no
entry as the literal placeholder only when the identifier also names no
inherited `Object.prototype` member — an identifier with no entry that
does name an inherited member is substituted with the string coercion
of that member — and copies any character that does not open a
placeholder, each occurrence handled independently as scanning continues
on the rest.  The embedding is a pure function, so the input tree is
never mutated (a new tree is returned by construction). -/
theorem c2_interpolate_contract :
    ∀ (vars : List (String × String)),
      (interpolate vars .null = .null) ∧
      (∀ b, interpolate vars (.bool b) = .bool b) ∧
      (∀ q, interpolate vars (.num q) = .num q) ∧
      (∀ s, interpolate vars (.str s) = .str (interpolateString s vars)) ∧
      (∀ xs, interpolate vars (.arr xs) = .arr (xs.map (interpolate vars))) ∧
      (∀ fs, interpolate vars (.obj fs) =
        .obj (fs.map fun kv => (kv.1, interpolate vars kv.2))) ∧
      (∀ (name v rest : String), name.data ≠ [] →
        (∀ c ∈ name.data, isWordChar c = true) → vars.lookup name = some v →
        interpolateString ("\x7b\x7b" ++ name ++ "\x7d\x7d" ++ rest) vars
          = v ++ interpolateString rest vars) ∧
      (∀ (name rest : String), name.data ≠ [] →
        (∀ c ∈ name.data, isWordChar c = true) → vars.lookup name = none →
        protoFnNames.contains name = false → (name == "__proto__") = false →
        interpolateString ("\x7b\x7b" ++ name ++ "\x7d\x7d" ++ rest) vars
          = "\x7b\x7b" ++ name ++ "\x7d\x7d" ++ interpolateString rest vars) ∧
      (∀ (name w rest : String), name.data ≠ [] →
        (∀ c ∈ name.data, isWordChar c = true) → vars.lookup name = none →
        jsVarLookup vars name = some w →
        interpolateString ("\x7b\x7b" ++ name ++ "\x7d\x7d" ++ rest) vars
          = w ++ interpolateString rest vars) ∧
      (∀ (c : Char) (rest : String), c ≠ '\x7b' →
        interpolateString (String.singleton c ++ rest) vars
          = String.singleton c ++ interpolateString rest vars) := by
  intro vars
  refine ⟨rfl, fun b => rfl, fun q => rfl, fun s => rfl, ?_, ?_,
    fun name v rest h1 h2 h3 =>
      interpolateString_head_mapped rest h1 h2 (by simp [jsVarLookup, h3]),
    fun name rest h1 h2 h3 h4 h5 =>
      interpolateString_head_unmapped rest h1 h2
        (by simp [jsVarLookup, h3, h5, show name ∉ protoFnNames by simpa using h4]),
    fun name w rest h1 h2 h3 h4 => interpolateString_head_mapped rest h1 h2 h4,
    fun c rest h => interpolateString_cons_plain rest h⟩
  · intro xs
    have h1 : interpolate vars (.arr xs)
        = .arr (xs.map (interpolateF vars (size (.arr xs)))) := rfl
    rw [h1]
    congr 1
    apply List.map_congr_left
    intro x hx
    have hs : size x < size (.arr xs) := size_mem_arr hx
    exact interpolateF_eq_interpolate vars (size (.arr xs)) x hs
  · intro fs
    have h1 : interpolate vars (.obj fs)
        = .obj (fs.map fun kv => (kv.1, interpolateF vars (size (.obj fs)) kv.2)) := rfl
    rw [h1]
    congr 1
    apply List.map_congr_left
    intro kv hkv
    have hs : size kv.2 < size (.obj fs) := @size_mem_obj kv.2 fs kv.1 (by simpa using hkv)
    exact congrArg (fun z => (kv.1, z))
      (interpolateF_eq_interpolate vars (size (.obj fs)) kv.2 hs)

/-- Claim C2 witness: a mapped placeholder at the head of a string is
replaced by the value of the variable, and an unmapped identifier that
names no inherited member survives literally. -/
theorem c2_witness :
    (interpolateString ("\x7b\x7b" ++ "a" ++ "\x7d\x7d" ++ "!") [("a", "x")]
      = "x" ++ interpolateString "!" [("a", "x")]) ∧
    (interpolateString ("\x7b\x7b" ++ "zzz" ++ "\x7d\x7d" ++ "!") [("a", "x")]
      = "\x7b\x7b" ++ "zzz" ++ "\x7d\x7d" ++ interpolateString "!" [("a", "x")]) :=
  ⟨(c2_interpolate_contract [("a", "x")]).2.2.2.2.2.2.1 "a" "x" "!"
    (by decide) (by decide) (by decide),
   (c2_interpolate_contract [("a", "x")]).2.2.2.2.2.2.2.1 "zzz" "!"
    (by decide) (by decide) (by decide) (by decide) (by decide)⟩

theorem lookup_map_ne {f : String} {v : JsVal} :
    ∀ (ps : List (String × JsVal)) (k : String), k ≠ f →
      (ps.map fun p => if p.1 == f then (p.1, v) else p).lookup k = ps.lookup k := by
  intro ps
  induction ps with
  | nil => intro k _; rfl
  | cons p ps ih =>
    intro k hkf
    obtain ⟨p1, p2⟩ := p
    by_cases hpf : p1 = f
    · subst hpf
      simp only [List.map_cons, beq_self_eq_true, if_true]
      rw [List.lookup_cons, List.lookup_cons]
      have hk : (k == p1) = false := by simp [hkf]
      simp only [hk]
      exact ih k hkf
    · have hb : (p1 == f) = false := by simp [hpf]
      simp only [List.map_cons, hb, Bool.false_eq_true, if_false]
      rw [List.lookup_cons, List.lookup_cons]
      cases hkp : k == p1 with
      | false => simp only [hkp]; exact ih k hkf
      | true => simp only [hkp]

theorem lookup_map_self {v : JsVal} :
    ∀ (ps : List (String × JsVal)) (f : String), ps.any (fun p => p.1 == f) = true →
      (ps.map fun p => if p.1 == f then (p.1, v) else p).lookup f = some v := by
  intro ps
  induction ps with
  | nil => intro f h; simp at h
  | cons p ps ih =>
    intro f hany
    obtain ⟨p1, p2⟩ := p
    by_cases hpf : p1 = f
    · subst hpf
      simp only [List.map_cons, beq_self_eq_true, if_true]
      rw [List.lookup_cons]
      simp
    · have hb : (p1 == f) = false := by simp [hpf]
      simp only [List.map_cons, hb, Bool.false_eq_true, if_false]
      rw [List.lookup_cons]
      have hf : (f == p1) = false := by simp [Ne.symm hpf]
      simp only [hf]
      apply ih
      simpa [List.any_cons, hb] using hany

theorem setKey_lookup_ne (payload : List (String × JsVal)) (k f : String) (v : JsVal)
    (hkf : k ≠ f) : (setKey payload f v).lookup k = payload.lookup k := by
  unfold setKey
  by_cases hany : payload.any (fun p => p.1 == f)
  · rw [if_pos hany]
    exact lookup_map_ne payload k hkf
  · rw [if_neg hany, List.lookup_append]
    have hone : List.lookup k [(f, v)] = none := by
      rw [List.lookup_cons]
      have : (k == f) = false := by simp [hkf]
      simp [this]
    rw [hone]
    simp

theorem setKey_lookup_self (payload : List (String × JsVal)) (f : String) (v : JsVal) :
    (setKey payload f v).lookup f = some v := by
  unfold setKey
  by_cases hany : payload.any (fun p => p.1 == f)
  · rw [if_pos hany]
    exact lookup_map_self payload f hany
  · rw [if_neg hany, List.lookup_append]
    have hnone : payload.lookup f = none := by
      rw [List.lookup_eq_none_iff]
      intro p hp
      simp only [bne_iff_ne, ne_eq]
      intro hfp
      apply hany
      rw [List.any_eq_true]
      exact ⟨p, hp, by simp [hfp]⟩
    rw [hnone]
    simp

theorem length_flatMap_eq {α β : Type} (l : List α) (g : α → List β) :
    (l.flatMap g).length = (l.map fun a => (g a).length).sum := by
  rw [List.flatMap_def, List.length_flatten, List.map_map]
  apply congrArg List.sum
  apply List.map_congr_left
  intro a _
  rfl

/-- Claim C6: the negative-payload generator emits, in spec order then
case order, exactly one payload per `expectValid = false` boundary case,
each equal to the valid payload with only the field of that case overridden
by the value of the case — the overridden key reads back as the invalid
value and every other key reads back unchanged. -/
theorem c6_generateNegativePayloads :
    ∀ (payload : List (String × JsVal)) (specs : List FieldSpec),
      (generateNegativePayloads payload specs =
        specs.flatMap fun spec =>
          ((generateBoundaryCases spec).filter fun c => !c.expectValid).map
            fun c => ⟨c.description, setKey payload c.field c.value⟩) ∧
      (∀ r ∈ generateNegativePayloads payload specs, ∃ spec ∈ specs,
        ∃ c ∈ generateBoundaryCases spec, c.expectValid = false ∧
          r.description = c.description ∧ r.payload = setKey payload c.field c.value) ∧
      ((generateNegativePayloads payload specs).length =
        (specs.map fun spec =>
          ((generateBoundaryCases spec).filter fun c => !c.expectValid).length).sum) ∧
      (∀ (k f : String) (v : JsVal), k ≠ f →
        (setKey payload f v).lookup k = payload.lookup k) ∧
      (∀ (f : String) (v : JsVal), (setKey payload f v).lookup f = some v) := by
  intro payload specs
  refine ⟨rfl, ?_, ?_,
    fun k f v h => setKey_lookup_ne payload k f v h,
    fun f v => setKey_lookup_self payload f v⟩
  case refine_2 =>
    show (specs.flatMap fun spec =>
        ((generateBoundaryCases spec).filter fun c => !c.expectValid).map
          fun c => (⟨c.description, setKey payload c.field c.value⟩ : NegativePayload)).length
      = _
    rw [length_flatMap_eq]
    apply congrArg List.sum
    apply List.map_congr_left
    intro spec _
    rw [List.length_map]
  intro r hr
  rw [generateNegativePayloads, List.mem_flatMap] at hr
  obtain ⟨spec, hspec, hr2⟩ := hr
  rw [List.mem_map] at hr2
  obtain ⟨c, hcf, rfl⟩ := hr2
  rw [List.mem_filter] at hcf
  refine ⟨spec, hspec, c, hcf.1, ?_, rfl, rfl⟩
  simpa using hcf.2

/-- Valid payload used by the claim C6 witness. -/
def c6Payload : List (String × JsVal) :=
  [("name", .str "Valid User"), ("age", .num 30)]

/-- Claim C6 witness: overriding `age` changes only `age`. -/
theorem c6_witness :
    (setKey c6Payload "age" (.num (-1))).lookup "name" = c6Payload.lookup "name" ∧
    (setKey c6Payload "age" (.num (-1))).lookup "age" = some (.num (-1)) :=
  ⟨(c6_generateNegativePayloads c6Payload []).2.2.2.1 "name" "age" (.num (-1)) (by decide),
   (c6_generateNegativePayloads c6Payload []).2.2.2.2 "age" (.num (-1))⟩

/-- Claim C7: `deepEqual` is reflexive and symmetric over all JSON-like
values (no `undefined`, no `NaN`, objects with distinct keys — the
values a parsed JSON body can take), and key sets must match exactly:
an extra key on either side fails, as on the concrete pair
`(a:1, b:2)` versus `(a:1)`. -/
theorem c7_deepEqual_refl_symm :
    (∀ a, JsonLike a → deepEqual a a = true) ∧
    (∀ a b, JsonLike a → JsonLike b → deepEqual a b = deepEqual b a) ∧
    deepEqual (.obj [("a", .num 1), ("b", .num 2)]) (.obj [("a", .num 1)]) = false :=
  ⟨fun _ ha => deepEqual_refl ha, fun _ _ ha hb => deepEqual_symm ha hb, by decide⟩

/-- Claim C7 witness: reflexivity on a concrete object and symmetry on a
concrete mixed-type pair. -/
theorem c7_witness :
    deepEqual (.obj [("a", .num 1)]) (.obj [("a", .num 1)]) = true ∧
    deepEqual (.num 3) (.str "3") = deepEqual (.str "3") (.num 3) := by
  constructor
  · apply c7_deepEqual_refl_symm.1
    refine JsonLike.obj _ (fun f hf => ?_) (by simp)
    simp only [List.mem_singleton] at hf
    rw [hf]
    exact JsonLike.num 1
  · exact c7_deepEqual_refl_symm.2.1 _ _ (JsonLike.num 3) (JsonLike.str "3")

theorem foldl_deepGetStep_undef : ∀ ks : List String,
    ks.foldl deepGetStep .undef = .undef := by
  intro ks
  induction ks with
  | nil => rfl
  | cons k ks ih => exact ih

/-- Claim C8: `deepGet` is total — it splits the path on `.` and folds a
step function that never throws: descending through `null` or
`undefined` (for the whole remaining path) yields `undefined`, every
non-container leaf (booleans, numbers, `NaN`, strings, and the inherited
member functions, whose `typeof` is `"function"`) yields `undefined`, an
array key whose `Number()` conversion is `NaN` yields `undefined` (a
non-integer or infinite conversion names no element either), an integer
key indexes the array (out-of-range or negative yielding `undefined`),
and a keyed container performs the JavaScript property lookup
`current[key]`: the own entry when present, otherwise the inherited
`Object.prototype` member of that name (`undefined` when there is
neither); the prototype object reached via `__proto__` answers its own
member names and ends the chain with a `null` `__proto__`. -/
theorem c8_deepGet_total :
    (∀ (v : JsVal) (path : String),
      deepGet v path = (path.splitOn ".").foldl deepGetStep v) ∧
    (∀ ks : List String, ks.foldl deepGetStep .undef = .undef) ∧
    (∀ (k : String) (ks : List String),
      (k :: ks).foldl deepGetStep .null = .undef) ∧
    (∀ k, deepGetStep .null k = .undef) ∧
    (∀ k, deepGetStep .undef k = .undef) ∧
    (∀ b k, deepGetStep (.bool b) k = .undef) ∧
    (∀ q k, deepGetStep (.num q) k = .undef) ∧
    (∀ k, deepGetStep .nan k = .undef) ∧
    (∀ s k, deepGetStep (.str s) k = .undef) ∧
    (∀ m k, deepGetStep (.protoFn m) k = .undef) ∧
    (∀ xs k, jsNumParse k = .nan → deepGetStep (.arr xs) k = .undef) ∧
    (∀ xs k, jsNumParse k = .fracVal → deepGetStep (.arr xs) k = .undef) ∧
    (∀ xs k, jsNumParse k = .infVal → deepGetStep (.arr xs) k = .undef) ∧
    (∀ xs k i, jsNumParse k = .intVal i → deepGetStep (.arr xs) k =
      if 0 ≤ i then xs.getD i.toNat .undef else .undef) ∧
    (∀ fs k, deepGetStep (.obj fs) k = (fs.lookup k).getD (objMiss k)) ∧
    (∀ fs k, fs.lookup k = none → deepGetStep (.obj fs) k = objMiss k) ∧
    (∀ k, protoFnNames.contains k = false → (k == "__proto__") = false →
      objMiss k = .undef) ∧
    (∀ k, deepGetStep .protoObj k =
      if protoFnNames.contains k then .protoFn k
      else if k == "__proto__" then JsVal.null else .undef) := by
  refine ⟨fun v path => rfl, foldl_deepGetStep_undef, ?_, fun k => rfl, fun k => rfl,
    fun b k => rfl, fun q k => rfl, fun k => rfl, fun s k => rfl, fun m k => rfl,
    ?_, ?_, ?_, ?_, fun fs k => rfl, ?_, ?_, fun k => rfl⟩
  · intro k ks
    exact foldl_deepGetStep_undef ks
  · intro xs k h
    simp [deepGetStep, h]
  · intro xs k h
    simp [deepGetStep, h]
  · intro xs k h
    simp [deepGetStep, h]
  · intro xs k i h
    simp [deepGetStep, h]
  · intro fs k h
    simp [deepGetStep, h]
  · intro k h1 h2
    simp [objMiss, h2, show k ∉ protoFnNames by simpa using h1]

/-- Claim C8 witness: a non-numeric key on an array yields `undefined`,
the exponent-form key `1e2` converts to the integer index 100, an
absent object key falls back on the prototype chain (here finding the
inherited `toString`), and an absent key that names no inherited member
reads `undefined`. -/
theorem c8_witness :
    deepGetStep (.arr [.str "x", .str "y"]) "foo" = .undef ∧
    deepGetStep (.arr [.str "x", .str "y"]) "1e2" =
      (if 0 ≤ (100 : Int) then [JsVal.str "x", JsVal.str "y"].getD (100 : Int).toNat .undef
       else .undef) ∧
    deepGetStep (.obj []) "toString" = objMiss "toString" ∧
    objMiss "name" = .undef := by
  refine ⟨?_, ?_, ?_, ?_⟩
  · exact c8_deepGet_total.2.2.2.2.2.2.2.2.2.2.1 [.str "x", .str "y"] "foo" (by decide)
  · exact c8_deepGet_total.2.2.2.2.2.2.2.2.2.2.2.2.2.1 [.str "x", .str "y"] "1e2" 100
      (by decide)
  · exact c8_deepGet_total.2.2.2.2.2.2.2.2.2.2.2.2.2.2.2.1 [] "toString" rfl
  · exact c8_deepGet_total.2.2.2.2.2.2.2.2.2.2.2.2.2.2.2.2.1 "name" (by decide) (by decide)

theorem find?_first_false :
    ∀ (l : List (CheckId × Bool)) (c : CheckId × Bool),
      l.find? (fun p => !p.2) = some c →
      ∃ l₁ l₂, l = l₁ ++ c :: l₂ ∧ c.2 = false ∧ ∀ p ∈ l₁, p.2 = true := by
  intro l
  induction l with
  | nil => intro c h; simp at h
  | cons a l ih =>
    intro c h
    rw [List.find?_cons] at h
    cases hpa : (!a.2) with
    | true =>
      rw [hpa] at h
      simp only [Option.some.injEq] at h
      subst h
      exact ⟨[], l, by simp, by simpa using hpa, by simp⟩
    | false =>
      rw [hpa] at h
      simp only at h
      rcases ih c h with ⟨l₁, l₂, rfl, hc2, hall⟩
      refine ⟨a :: l₁, l₂, rfl, hc2, ?_⟩
      intro p hp
      rcases List.mem_cons.mp hp with rfl | hp
      · simpa using hpa
      · exact hall p hp

/-- Claim C1 (amended): the assertion section activates one check per
present expectation key, in the fixed program order; the test passes iff
every activated check passes (the AND of all individual results), but
evaluation is fail-fast — the first failing check throws, is the only
failure reported, and every check before it passed.  (The claimed
"every failing assertion is reported / a failure does not prevent
evaluation of the rest" is refuted by `c1_counterexample`.) -/
theorem c1_assertion_engine :
    ∀ (sv : JsVal → JsVal → Bool) (rm : String → String → Bool)
      (exp : ApiExpectation) (obs : Observed),
      (firstFailure sv rm exp obs = none ↔
        ∀ c ∈ activeChecks sv rm exp obs, c.2 = true) ∧
      (∀ id, firstFailure sv rm exp obs = some id →
        ∃ l₁ l₂, activeChecks sv rm exp obs = l₁ ++ (id, false) :: l₂ ∧
          ∀ p ∈ l₁, p.2 = true) := by
  intro sv rm exp obs
  constructor
  · simp only [firstFailure, Option.map_eq_none', List.find?_eq_none,
      Bool.not_eq_true', Bool.not_eq_false]
  · intro id h
    simp only [firstFailure] at h
    rcases Option.map_eq_some'.mp h with ⟨c, hfind, hid⟩
    rcases find?_first_false _ _ hfind with ⟨l₁, l₂, hl, hc2, hall⟩
    refine ⟨l₁, l₂, ?_, hall⟩
    rw [hl]
    have : c = (id, false) := by
      obtain ⟨c1, c2⟩ := c
      simp only at hid hc2
      rw [hid, hc2]
    rw [this]

/-- Trivially-passing schema validator stand-in for concrete runs. -/
def svTrue : JsVal → JsVal → Bool := fun _ _ => true

/-- Trivially-passing regex matcher stand-in for concrete runs. -/
def rmTrue : String → String → Bool := fun _ _ => true

/-- Expectation used by the claim C1 counterexample: `status: 200` and
`responseTime: 10`. -/
def expC1 : ApiExpectation := ⟨some 200, none, none, none, none, none, none, some 10⟩

/-- Observed response used by the claim C1 counterexample: status 404
after 100 ms — both activated assertions fail. -/
def obsC1 : Observed := ⟨404, [], .null, 100⟩

/-- Claim C1 counterexample: with two failing assertions the engine
reports only the first (status); the failing responseTime assertion is
never evaluated or reported, refuting "every failing assertion is
reported" and "the failure of one assertion does not prevent the
evaluation of the remaining ones". -/
theorem c1_counterexample :
    (CheckId.responseTime, false) ∈ activeChecks svTrue rmTrue expC1 obsC1 ∧
    firstFailure svTrue rmTrue expC1 obsC1 = some CheckId.status ∧
    some CheckId.status ≠ some CheckId.responseTime := by
  refine ⟨by decide, rfl, by decide⟩

/-- Expectation used by the claim C1 witness. -/
def expPass : ApiExpectation := ⟨some 200, none, none, none, none, none, none, some 500⟩

/-- Observed response used by the claim C1 witness. -/
def obsPass : Observed := ⟨200, [], .null, 5⟩

/-- Claim C1 witness: a run whose activated checks all pass reports no
failure. -/
theorem c1_witness : firstFailure svTrue rmTrue expPass obsPass = none :=
  (c1_assertion_engine svTrue rmTrue expPass obsPass).1.mpr (by decide)

/-- Claim C4: UI steps run strictly in declared order — a failing action
aborts the remaining steps (the suffix is never consulted), a passing
action hands over to the rest, a step list succeeds iff every action in
it succeeds, and an action name outside the fixed vocabulary fails
immediately with the message naming the unknown action. -/
theorem c4_ui_dispatcher :
    ∀ (host : Host),
      (∀ (s : UiAction) (rest : List UiAction) (e : String),
        executeAction host s = Except.error e →
        runSteps host (s :: rest) = Except.error e) ∧
      (∀ (s : UiAction) (rest : List UiAction),
        executeAction host s = Except.ok () →
        runSteps host (s :: rest) = runSteps host rest) ∧
      (∀ steps : List UiAction, runSteps host steps = Except.ok () ↔
        ∀ s ∈ steps, executeAction host s = Except.ok ()) ∧
      (∀ a : UiAction, a.action ∉ knownActions →
        executeAction host a = Except.error ("Unknown UI action: \"" ++ a.action ++ "\"")) := by
  intro host
  refine ⟨?_, ?_, ?_, ?_⟩
  · intro s rest e h
    simp [runSteps, h]
  · intro s rest h
    simp [runSteps, h]
  · intro steps
    induction steps with
    | nil => simp [runSteps]
    | cons s rest ih =>
      cases he : executeAction host s with
      | ok u => simp [runSteps, he, ih]
      | error e => simp [runSteps, he]
  · intro a h
    unfold executeAction
    split <;> first
      | rfl
      | (rename_i heq; exact absurd (by rw [heq]; decide) h)

/-- Host stand-in whose every capability call succeeds, for concrete
runs of the dispatcher. -/
def hostOk : Host :=
  ⟨fun _ => Except.ok (), fun _ => Except.ok (), fun _ => Except.ok (),
   fun _ => Except.ok (), fun _ => Except.ok (), fun _ => Except.ok (),
   fun _ => Except.ok (), fun _ => Except.ok (), fun _ => Except.ok (),
   fun _ => Except.ok (), fun _ => Except.ok (), fun _ => Except.ok (),
   fun _ => Except.ok (), fun _ => Except.ok (), fun _ => Except.ok (),
   fun _ => Except.ok (), fun _ => Except.ok (), fun _ => Except.ok (),
   fun _ => Except.ok (), fun _ => Except.ok (), fun _ => Except.ok (),
   fun _ => Except.ok ()⟩

/-- Unknown action used by the claim C4 witness. -/
def actUnknown : UiAction := ⟨"teleport", none, none, none, none⟩

/-- Claim C4 witness: an unknown action fails with the message naming
it, and that failure aborts a following step. -/
theorem c4_witness :
    executeAction hostOk actUnknown
      = Except.error ("Unknown UI action: \"" ++ "teleport" ++ "\"") ∧
    runSteps hostOk [actUnknown, actUnknown]
      = Except.error ("Unknown UI action: \"" ++ "teleport" ++ "\"") := by
  have h1 := (c4_ui_dispatcher hostOk).2.2.2 actUnknown (by decide)
  exact ⟨h1, (c4_ui_dispatcher hostOk).1 actUnknown [actUnknown] _ h1⟩

end UTE
